import Mathlib

/-!
# FPV scanner backend (`hackrf_backend.cpp`): band filter, hop scheduler, power tracker

A shallow embedding of the detection and hop-scheduling core of
`app/src/main/cpp/hackrf_backend.cpp`.

Modelling conventions:

* `uint64_t` / `size_t` values are `Nat` (no arithmetic of the embedded code
  can wrap: the only additions are `idx + 1` and `guard + 1` below the table
  size), `int` is `Int`.
* `double` values are rationals (`ℚ`).  The tracker is given twice.  In
  `ema_update`, `ema_locals`, `rx_track` the arithmetic is exact: `0.05` is
  `1/20`, `2.3` is `23/10`, `1e-9` is `1/10^9`.  In `ema_update_r`,
  `ema_locals_r`, `rx_track_r` every `double` operation and constant of the
  code is rounded by a rounding function `fl`; `fl64` is IEEE-754 binary64
  rounding (round to nearest, ties to even), and with `fl` the identity the
  second tracker is the first (`rx_track_r_id`).  Properties that turn on a
  comparison at a rounding boundary (the noise gate, the detection test, the
  truncated message fields) are stated of the rounded tracker.
* Atomic globals are fields of one state record, passed explicitly.
-/

namespace FPVScanner

/-! ## Hop table (`g_scan_freqs`, lines 53-75) -/

/-- Mirror of `struct ScanFreq`: a frequency in Hz and its display label. -/
structure ScanFreq where
  hz : Nat
  label : String
  deriving DecidableEq, Repr

/-- Mirror of the static table `g_scan_freqs`. -/
def g_scan_freqs : List ScanFreq :=
  [ ⟨300000000, "300 MHz"⟩,
    ⟨450000000, "450 MHz"⟩,
    ⟨600000000, "600 MHz"⟩,
    ⟨750000000, "750 MHz"⟩,
    ⟨900000000, "900 MHz"⟩,
    ⟨1050000000, "1050 MHz"⟩,
    ⟨1200000000, "1200 MHz"⟩,
    ⟨1350000000, "1350 MHz"⟩,
    ⟨2400000000, "2400 MHz"⟩,
    ⟨3300000000, "3300 MHz"⟩,
    ⟨5800000000, "5800 MHz"⟩ ]

/-- Mirror of `FREQ_COUNT = sizeof(g_scan_freqs) / sizeof(g_scan_freqs[0])`. -/
def FREQ_COUNT : Nat := g_scan_freqs.length

/-! ## Band filter (`freq_allowed`, lines 90-100) -/

/-- Mirror of `freq_allowed(hz, band)`: `mhz = hz / 1e6`, then one closed
range test per band; band 0 and every band outside 1..4 admit everything. -/
def freq_allowed (hz : Nat) (band : Int) : Bool :=
  let mhz : ℚ := (hz : ℚ) / 1000000
  if band = 0 then true
  else if band = 1 then decide (mhz ≥ 1100) && decide (mhz ≤ 1400)
  else if band = 2 then decide (mhz ≥ 2300) && decide (mhz ≤ 2500)
  else if band = 3 then decide (mhz ≥ 3200) && decide (mhz ≤ 3400)
  else if band = 4 then decide (mhz ≥ 5700) && decide (mhz ≤ 5900)
  else true

/-! ## Hop scheduler (`scan_loop`, lines 165-194) -/

/-- Local state of the search loop of `scan_loop` (lines 177-182) on exit.
`checks` is instrumentation: the number of times the loop condition has
evaluated `freq_allowed(g_scan_freqs[idx].hz, band)`. -/
structure SearchState where
  idx : Nat
  guard : Nat
  checks : Nat
  deriving DecidableEq, Repr

/-- Mirror of the loop
`while (!freq_allowed(g_scan_freqs[idx].hz, band) && guard < FREQ_COUNT)
 { idx = (idx + 1) % FREQ_COUNT; ++guard; }`
over a table given as a parameter.  The left operand of `&&` is evaluated
first, on every test of the condition.  Indexing outside the table has no
defined result (`none`).  The recursion is justified by `FREQ_COUNT - guard`. -/
def scan_search (table : List ScanFreq) (band : Int) (idx guard checks : Nat) :
    Option SearchState :=
  match table[idx]? with
  | none => none
  | some e =>
    if freq_allowed e.hz band then
      some { idx := idx, guard := guard, checks := checks + 1 }
    else if guard < table.length then
      scan_search table band ((idx + 1) % table.length) (guard + 1) (checks + 1)
    else
      some { idx := idx, guard := guard, checks := checks + 1 }
termination_by table.length - guard

/-- Effects of one hop tick: the argument passed to `hackrf_set_freq`, the
value stored in `g_current_freq_hz`, the cursor `idx` left for the next tick,
and the number of band-filter evaluations made by the search loop. -/
structure TickResult where
  set_freq_arg : Nat
  current_freq_hz : Nat
  idx : Nat
  checks : Nat
  deriving DecidableEq, Repr

/-- Mirror of the body of `if (ms > SCAN_STEP_MS) { ... }` in `scan_loop`
(lines 174-190): search from the cursor, tune to `g_scan_freqs[idx].hz`,
store it, and advance the cursor by one (mod the table size). -/
def scan_tick (table : List ScanFreq) (band : Int) (idx : Nat) : Option TickResult :=
  match scan_search table band idx 0 0 with
  | none => none
  | some s =>
    match table[s.idx]? with
    | none => none
    | some e =>
      some { set_freq_arg := e.hz
             current_freq_hz := e.hz
             idx := (s.idx + 1) % table.length
             checks := s.checks }

/-- Whether the table entry at index `i` exists and passes the band filter
(the "entry `i` is admitted" of the hop-scheduler properties). -/
def admitted (table : List ScanFreq) (band : Int) (i : Nat) : Bool :=
  match table[i]? with
  | some e => freq_allowed e.hz band
  | none => false

/-! ## Shared state -/

/-- Content of `g_last_detection` when it is not the empty string.  A detection
message keeps the four arguments handed to `snprintf` (line 151-153):
`freq_mhz`, `(int)power_ema`, `(int)noise_ema` and the ratio whose
`10 * log10` is printed as `DELTA_DB`. -/
inductive Message where
  | detection (freq_mhz : ℚ) (power : Int) (noise : Int) (ratio : ℚ)
  | diagnostic (text : String)
  deriving DecidableEq

/-- The globals read or written by `rx_callback` and `scan_loop`, together with
the function-local `static bool init_noise` of `rx_callback`. -/
structure Globals where
  scanning : Bool
  noise_ema : ℚ
  power_ema : ℚ
  detect_ratio : ℚ
  band_mode : Int
  current_freq_hz : Nat
  init_noise : Bool
  last_detection : Option Message

/-- Initial values of the globals (lines 17-47, 123). -/
def g_init : Globals :=
  { scanning := false
    noise_ema := 0
    power_ema := 0
    detect_ratio := 23 / 10
    band_mode := 0
    current_freq_hz := 300000000
    init_noise := false
    last_detection := none }

/-! ## Power estimator (`rx_callback`, lines 109-120) -/

/-- The two fields of `hackrf_transfer` that `rx_callback` reads.  Bytes are
naturals (below 256 for a real buffer); a read past the end of `buffer`
is modelled as 0 and does not occur when `valid_length ≤ buffer.length`. -/
structure hackrf_transfer where
  buffer : List Nat
  valid_length : Nat

/-- Mirror of the accumulation loop (lines 113-118):
`I = (int)buf[2*i] - 128; Q = (int)buf[2*i+1] - 128;
 sum_power += (double)I * I + (double)Q * Q` for `i = 0 .. count-1`. -/
def sum_power (buf : List Nat) (count : Nat) : ℚ :=
  (List.range count).foldl
    (fun acc i =>
      let I : Int := (buf.getD (2 * i) 0 : Int) - 128
      let Q : Int := (buf.getD (2 * i + 1) 0 : Int) - 128
      acc + ((I : ℚ) * (I : ℚ) + (Q : ℚ) * (Q : ℚ)))
    0

/-- Mirror of `avg_power = sum_power / (double)count` with
`count = valid_length / 2` (lines 110, 120). -/
def avg_power (t : hackrf_transfer) : ℚ :=
  sum_power t.buffer (t.valid_length / 2) / ((t.valid_length / 2 : Nat) : ℚ)

/-! ## Noise/power tracker (`rx_callback`, lines 122-158) -/

/-- Mirror of `ema_update(prev, v, a) = prev + a * (v - prev)` in exact
arithmetic (`ema_update_r` rounds each operation). -/
def ema_update (prev v a : ℚ) : ℚ := prev + a * (v - prev)

/-- Mirror of the C conversion `(int)x` of a double: truncation toward zero. -/
def c_int (x : ℚ) : Int := if 0 ≤ x then ⌊x⌋ else ⌈x⌉

/-- Mirror of lines 124-137 in exact arithmetic: the locals
`(noise_ema, power_ema)` after the cold-start / update branch, for the power
sample `s` of this buffer (`ema_locals_r` is the same in rounded arithmetic). -/
def ema_locals (g : Globals) (s : ℚ) : ℚ × ℚ :=
  if g.init_noise = false then
    (s, s)
  else
    let power_ema := ema_update g.power_ema s (1 / 20)
    let ratio := g.detect_ratio
    let noise_ema :=
      if s < g.noise_ema * ratio then ema_update g.noise_ema s (1 / 20) else g.noise_ema
    (noise_ema, power_ema)

/-- What one run of the tracker part of `rx_callback` produces: the globals
after it, the local `ratio` of line 143, and the message handed to
`set_last_detection` when the detection branch is taken. -/
structure RxOutcome where
  globals : Globals
  ratio : ℚ
  published : Option Message

/-- Mirror of lines 122-158 of `rx_callback` for a buffer whose average power
is `s`, in exact arithmetic: update the EMAs, store them, compute the ratio
from the stored values, and publish a detection message when
`ratio > g_detect_ratio` (`rx_track_r` is the same in rounded arithmetic). -/
def rx_track (g : Globals) (s : ℚ) : RxOutcome :=
  let noise_ema := (ema_locals g s).1
  let power_ema := (ema_locals g s).2
  let g1 : Globals :=
    { g with noise_ema := noise_ema, power_ema := power_ema, init_noise := true }
  let ratio : ℚ := if noise_ema > 1 / 1000000000 then power_ema / noise_ema else 0
  if ratio > g1.detect_ratio then
    let freq_mhz : ℚ := (g1.current_freq_hz : ℚ) / 1000000
    let msg := Message.detection freq_mhz (c_int power_ema) (c_int noise_ema) ratio
    { globals := { g1 with last_detection := some msg }, ratio := ratio, published := some msg }
  else
    { globals := g1, ratio := ratio, published := none }

/-- Mirror of `rx_callback`: return 0 at once when not scanning or when the
buffer holds no complete I/Q pair, otherwise estimate the power and run the
tracker.  The result is the return code and the globals afterwards. -/
def rx_callback (g : Globals) (t : hackrf_transfer) : Int × Globals :=
  if g.scanning = false then (0, g)
  else if t.valid_length / 2 = 0 then (0, g)
  else (0, (rx_track g (avg_power t)).globals)

/-- The tracking state (first buffer already seen) with the given noise and
power EMAs; every other global has its initial value (threshold 2.3). -/
def tracking (noise power : ℚ) : Globals :=
  { g_init with init_noise := true, noise_ema := noise, power_ema := power }

/-- The tracker run over consecutive power samples, oldest first. -/
def rx_run (g : Globals) (samples : List ℚ) : Globals :=
  samples.foldl (fun st s => (rx_track st s).globals) g

/-- Whether the detection branch is taken on the buffer with power sample `s`
processed in state `g`. -/
def fires (g : Globals) (s : ℚ) : Bool := (rx_track g s).published.isSome

/-- The `rx_callback` of consecutive transfers, oldest first (return codes dropped). -/
def rx_callback_run (g : Globals) (ts : List hackrf_transfer) : Globals :=
  ts.foldl (fun st t => (rx_callback st t).2) g

/-! ## Hop sequences -/

/-- The band filter with the range ends taken in Hz, on integers only; it agrees
with `freq_allowed` (see `freq_allowed_eq_hz`) and evaluates by computation. -/
def freq_allowed_hz (hz : Nat) (band : Int) : Bool :=
  if band = 0 then true
  else if band = 1 then decide (1100000000 ≤ hz) && decide (hz ≤ 1400000000)
  else if band = 2 then decide (2300000000 ≤ hz) && decide (hz ≤ 2500000000)
  else if band = 3 then decide (3200000000 ≤ hz) && decide (hz ≤ 3400000000)
  else if band = 4 then decide (5700000000 ≤ hz) && decide (hz ≤ 5900000000)
  else true

/-- Consecutive hop ticks of `scan_loop`, one per element of `bands` (the value
`g_band_mode.load()` returns at that tick), started with the cursor at `idx`:
the frequencies stored in `g_current_freq_hz`, in order, and the final cursor.
The result is `none` as soon as a tick indexes outside the table. -/
def scan_run (table : List ScanFreq) : List Int → Nat → Option (List Nat × Nat)
  | [], idx => some ([], idx)
  | band :: rest, idx =>
    match scan_tick table band idx with
    | none => none
    | some r =>
      match scan_run table rest r.idx with
      | none => none
      | some (freqs, idx') => some (r.current_freq_hz :: freqs, idx')

/-- Frequency of the table entry at index `i` (0 outside the table). -/
def hz_at (table : List ScanFreq) (i : Nat) : Nat :=
  match table[i]? with
  | some e => e.hz
  | none => 0

/-- Indices of the admitted entries of the table under `band`, in increasing
order (the `a_0 < a_1 < ... < a_(m-1)` of the circular-hopping property). -/
def admissible (table : List ScanFreq) (band : Int) : List Nat :=
  (List.range table.length).filter (fun i => admitted table band i)

/-- Number of admitted indices strictly below the cursor `c`. -/
def rank_below (table : List ScanFreq) (band : Int) (c : Nat) : Nat :=
  ((admissible table band).filter (fun a => decide (a < c))).length

/-- Index expected on tick number `t` (counted from 0) of a run started with
the cursor at `c`: the admitted indices taken in table order, circularly,
beginning with the first one at or after `c`. -/
def visit (table : List ScanFreq) (band : Int) (c t : Nat) : Nat :=
  (admissible table band).getD
    ((rank_below table band c + t) % (admissible table band).length) 0

/-- What has to be checked of a list `L` of indices of the 11-entry table for
the tick from the cursor `c` to land on the entry that `visit` names: the
entry is reached after `k = (v + 11 - c) % 11` advances, it is in `L`, no index
passed on the way is in `L`, and the rank of the next cursor is one more
(mod the length of `L`).  A decidable proof obligation. -/
def adm_step_ok (L : List Nat) (c : Nat) : Prop :=
  (c + (L.getD ((L.filter (fun a => decide (a < c))).length % L.length) 0 + 11 - c) % 11) % 11
      = L.getD ((L.filter (fun a => decide (a < c))).length % L.length) 0 ∧
  L.getD ((L.filter (fun a => decide (a < c))).length % L.length) 0 ∈ L ∧
  (∀ j < (L.getD ((L.filter (fun a => decide (a < c))).length % L.length) 0 + 11 - c) % 11,
    (c + j) % 11 ∉ L) ∧
  (L.filter (fun a => decide
      (a < (L.getD ((L.filter (fun a => decide (a < c))).length % L.length) 0 + 1) % 11))).length
    % L.length = ((L.filter (fun a => decide (a < c))).length + 1) % L.length

instance (L : List Nat) (c : Nat) : Decidable (adm_step_ok L c) := by
  unfold adm_step_ok; infer_instance

/-! ## Host interface (JNI functions, lines 208-326) -/

/-- Mirror of `nativeSetBandMode`: clamp `mode` to `[0, 4]` and store it. -/
def nativeSetBandMode (g : Globals) (mode : Int) : Globals :=
  let mode1 := if mode < 0 then 0 else mode
  let mode2 := if mode1 > 4 then 4 else mode1
  { g with band_mode := mode2 }

/-- Outcome of the three fallible driver calls of `nativeStartScan`:
`hackrf_init() == HACKRF_SUCCESS`, `hackrf_open(&g_dev) == HACKRF_SUCCESS`
with a non-null device, and `hackrf_start_rx(...) == HACKRF_SUCCESS`. -/
structure Driver where
  init_ok : Bool
  open_ok : Bool
  start_rx_ok : Bool

/-- The globals together with `g_connected`.  The device handle `g_dev`, the gain
settings and the driver calls themselves are not part of the state. -/
structure Backend where
  globals : Globals
  connected : Bool

/-- Initial backend state: initial globals, `g_connected(false)`. -/
def b_init : Backend := { globals := g_init, connected := false }

/-- Mirror of `nativeStartScan` (lines 238-286).  It returns at once when a
scan is running; a driver failure writes a diagnostic to `g_last_detection`
and clears `g_connected`; otherwise it stores `g_scan_freqs[0].hz` in
`g_current_freq_hz`, starts reception, sets `g_scanning` and spawns
`scan_loop` (whose cursor starts at 0).  It writes neither EMA nor
`init_noise`, and on success it does not write `g_last_detection`. -/
def nativeStartScan (drv : Driver) (b : Backend) : Bool × Backend :=
  if b.globals.scanning = true then (true, b)
  else if drv.init_ok = false then
    (false, { globals := { b.globals with
                last_detection := some (Message.diagnostic "hackrf_init() failed") }
              connected := false })
  else if drv.open_ok = false then
    (false, { globals := { b.globals with
                last_detection := some (Message.diagnostic "hackrf_open() failed") }
              connected := false })
  else
    let g1 : Globals := { b.globals with current_freq_hz := hz_at g_scan_freqs 0 }
    if drv.start_rx_ok = false then
      (false, { globals := { g1 with
                  last_detection := some (Message.diagnostic "hackrf_start_rx() failed") }
                connected := false })
    else
      (true, { globals := { g1 with scanning := true }, connected := true })

/-- Mirror of `nativeStopScan` (lines 288-308): clear `g_scanning`, join the
scan thread, close the device, clear `g_connected`. -/
def nativeStopScan (b : Backend) : Backend :=
  { globals := { b.globals with scanning := false }, connected := false }

/-- Mirror of `nativeGetLastDetection` (lines 318-326): `nullptr` (`none`) when
`g_last_detection` is empty, the stored message otherwise. -/
def nativeGetLastDetection (g : Globals) : Option Message := g.last_detection

/-- A driver on which every call succeeds. -/
def driver_ok : Driver := { init_ok := true, open_ok := true, start_rx_ok := true }

/-! ## Rounded arithmetic (`double`) -/

/-- Floor of the base-2 logarithm of a natural number by repeated halving
(`fuel` bounds the number of halvings; 0 for `n < 2`). -/
def log2_fuel : Nat → Nat → Nat
  | 0, _ => 0
  | fuel + 1, n => if n < 2 then 0 else log2_fuel fuel (n / 2) + 1

/-- Floor of the base-2 logarithm of a positive rational `a`: the `e` with
`2^e ≤ a < 2^(e+1)`, from the bit lengths of numerator and denominator. -/
def log2_floor (a : ℚ) : Int :=
  let e0 : Int := (log2_fuel a.num.natAbs a.num.natAbs : Int) - (log2_fuel a.den a.den : Int)
  if (2 : ℚ) ^ e0 ≤ a then e0 else e0 - 1

/-- Nearest integer to `m`, a tie going to the even neighbour. -/
def round_half_even (m : ℚ) : Int :=
  if m - ⌊m⌋ < 1 / 2 then ⌊m⌋
  else if m - ⌊m⌋ > 1 / 2 then ⌊m⌋ + 1
  else if ⌊m⌋ % 2 = 0 then ⌊m⌋ else ⌊m⌋ + 1

/-- Rounding of a real value to IEEE-754 binary64 (`double`), round to nearest,
ties to even: 53 significant bits, least exponent -1022 (subnormals below).
Overflow to infinity is not modelled (no value of the tracker comes near it). -/
def fl64 (x : ℚ) : ℚ :=
  if x = 0 then 0
  else
    let e : Int := max (log2_floor |x|) (-1022)
    let q : ℚ := (2 : ℚ) ^ (e - 52)
    if 0 < x then (round_half_even (|x| / q) : ℚ) * q
    else -((round_half_even (|x| / q) : ℚ) * q)

/-- Mirror of `ema_update(prev, v, a) = prev + a * (v - prev)` with each of the
three `double` operations rounded by `fl` (separately: no fused multiply-add). -/
def ema_update_r (fl : ℚ → ℚ) (prev v a : ℚ) : ℚ := fl (prev + fl (a * fl (v - prev)))

/-- Mirror of lines 124-137 in rounded arithmetic: `0.05` is the `double`
`fl (1/20)`, the gate compares `avg_power` with the rounded product
`noise_ema * ratio`. -/
def ema_locals_r (fl : ℚ → ℚ) (g : Globals) (s : ℚ) : ℚ × ℚ :=
  if g.init_noise = false then
    (s, s)
  else
    let power_ema := ema_update_r fl g.power_ema s (fl (1 / 20))
    let ratio := g.detect_ratio
    let noise_ema :=
      if s < fl (g.noise_ema * ratio) then ema_update_r fl g.noise_ema s (fl (1 / 20))
      else g.noise_ema
    (noise_ema, power_ema)

/-- Mirror of lines 122-158 of `rx_callback` in rounded arithmetic: `1e-9` is
the `double` `fl (1/10^9)`, the ratio is the rounded quotient, and
`freq_mhz = (double)freq_hz / 1e6` rounds the conversion and the quotient.
With `fl` the identity this is `rx_track`. -/
def rx_track_r (fl : ℚ → ℚ) (g : Globals) (s : ℚ) : RxOutcome :=
  let noise_ema := (ema_locals_r fl g s).1
  let power_ema := (ema_locals_r fl g s).2
  let g1 : Globals :=
    { g with noise_ema := noise_ema, power_ema := power_ema, init_noise := true }
  let ratio : ℚ := if noise_ema > fl (1 / 1000000000) then fl (power_ema / noise_ema) else 0
  if ratio > g1.detect_ratio then
    let freq_mhz : ℚ := fl (fl (g1.current_freq_hz : ℚ) / 1000000)
    let msg := Message.detection freq_mhz (c_int power_ema) (c_int noise_ema) ratio
    { globals := { g1 with last_detection := some msg }, ratio := ratio, published := some msg }
  else
    { globals := g1, ratio := ratio, published := none }

/-- Mirror of `avg_power = sum_power / (double)count` in rounded arithmetic
(the sum of integers is exact). -/
def avg_power_r (fl : ℚ → ℚ) (t : hackrf_transfer) : ℚ :=
  fl (sum_power t.buffer (t.valid_length / 2) / ((t.valid_length / 2 : Nat) : ℚ))

/-- Mirror of `rx_callback` in rounded arithmetic. -/
def rx_callback_r (fl : ℚ → ℚ) (g : Globals) (t : hackrf_transfer) : Int × Globals :=
  if g.scanning = false then (0, g)
  else if t.valid_length / 2 = 0 then (0, g)
  else (0, (rx_track_r fl g (avg_power_r fl t)).globals)

/-- The rounded tracker run over consecutive power samples, oldest first. -/
def rx_run_r (fl : ℚ → ℚ) (g : Globals) (samples : List ℚ) : Globals :=
  samples.foldl (fun st s => (rx_track_r fl st s).globals) g

/-- The rounded `rx_callback` of consecutive transfers, oldest first. -/
def rx_callback_run_r (fl : ℚ → ℚ) (g : Globals) (ts : List hackrf_transfer) : Globals :=
  ts.foldl (fun st t => (rx_callback_r fl st t).2) g

/-- Whether the detection branch is taken, in rounded arithmetic. -/
def fires_r (fl : ℚ → ℚ) (g : Globals) (s : ℚ) : Bool := (rx_track_r fl g s).published.isSome

/-- Initial globals in rounded arithmetic: `g_detect_ratio(2.3)` holds the
`double` nearest to 2.3. -/
def g_init_r (fl : ℚ → ℚ) : Globals := { g_init with detect_ratio := fl (23 / 10) }

/-! # Properties -/

/-! ## Band filter -/

theorem mhz_ge_iff (hz lo : Nat) : ((lo : ℚ) ≤ (hz : ℚ) / 1000000) ↔ lo * 1000000 ≤ hz := by
  rw [le_div_iff₀ (by norm_num : (0 : ℚ) < 1000000)]
  exact_mod_cast Iff.rfl

theorem mhz_le_iff (hz hi : Nat) : ((hz : ℚ) / 1000000 ≤ (hi : ℚ)) ↔ hz ≤ hi * 1000000 := by
  rw [div_le_iff₀ (by norm_num : (0 : ℚ) < 1000000)]
  exact_mod_cast Iff.rfl

/-- C1: `freq_allowed` admits every frequency under mode 0 (Auto); under modes
1, 2, 3, 4 it admits `hz` exactly when `hz / 1e6` lies in the closed range
[1100, 1400], [2300, 2500], [3200, 3400], [5700, 5900] respectively (equally:
when `hz` lies between the range ends taken in Hz).  Under mode 2,
2,400,000,000 Hz is admitted and 1,200,000,000 Hz is rejected, and under Auto
each of the 11 entries of the hop table is admitted. -/
theorem freq_allowed_ranges :
    (∀ hz : Nat, freq_allowed hz 0 = true) ∧
    (∀ hz : Nat,
      (freq_allowed hz 1 = true ↔ (1100 : ℚ) ≤ (hz : ℚ) / 1000000 ∧ (hz : ℚ) / 1000000 ≤ 1400) ∧
      (freq_allowed hz 2 = true ↔ (2300 : ℚ) ≤ (hz : ℚ) / 1000000 ∧ (hz : ℚ) / 1000000 ≤ 2500) ∧
      (freq_allowed hz 3 = true ↔ (3200 : ℚ) ≤ (hz : ℚ) / 1000000 ∧ (hz : ℚ) / 1000000 ≤ 3400) ∧
      (freq_allowed hz 4 = true ↔ (5700 : ℚ) ≤ (hz : ℚ) / 1000000 ∧ (hz : ℚ) / 1000000 ≤ 5900)) ∧
    (∀ hz : Nat,
      (freq_allowed hz 1 = true ↔ 1100000000 ≤ hz ∧ hz ≤ 1400000000) ∧
      (freq_allowed hz 2 = true ↔ 2300000000 ≤ hz ∧ hz ≤ 2500000000) ∧
      (freq_allowed hz 3 = true ↔ 3200000000 ≤ hz ∧ hz ≤ 3400000000) ∧
      (freq_allowed hz 4 = true ↔ 5700000000 ≤ hz ∧ hz ≤ 5900000000)) ∧
    freq_allowed 2400000000 2 = true ∧
    freq_allowed 1200000000 2 = false ∧
    (∀ e ∈ g_scan_freqs, freq_allowed e.hz 0 = true) ∧
    g_scan_freqs.length = 11 := by
  refine ⟨fun hz => by simp [freq_allowed], fun hz => ?_, fun hz => ?_, ?_, ?_, ?_, rfl⟩
  · simp [freq_allowed]
  · have h1 := mhz_ge_iff hz 1100
    have h2 := mhz_le_iff hz 1400
    have h3 := mhz_ge_iff hz 2300
    have h4 := mhz_le_iff hz 2500
    have h5 := mhz_ge_iff hz 3200
    have h6 := mhz_le_iff hz 3400
    have h7 := mhz_ge_iff hz 5700
    have h8 := mhz_le_iff hz 5900
    norm_num at h1 h2 h3 h4 h5 h6 h7 h8
    simp [freq_allowed, h1, h2, h3, h4, h5, h6, h7, h8]
  · simp [freq_allowed]; norm_num
  · simp [freq_allowed]; norm_num
  · intro e he; simp [freq_allowed]

/-! ## Hop scheduler -/

theorem admitted_eq_of_get {table : List ScanFreq} {band : Int} {i : Nat} {e : ScanFreq}
    (h : table[i]? = some e) : admitted table band i = freq_allowed e.hz band := by
  simp [admitted, h]

/-- Exit of the search loop on an admitted entry. -/
theorem scan_search_hit (table : List ScanFreq) (band : Int) (idx guard checks : Nat)
    (h : admitted table band idx = true) :
    scan_search table band idx guard checks =
      some { idx := idx, guard := guard, checks := checks + 1 } := by
  rw [scan_search]
  cases he : table[idx]? with
  | none => simp [admitted, he] at h
  | some e =>
    rw [admitted_eq_of_get he] at h
    simp [h]

/-- Exit of the search loop on an exhausted guard. -/
theorem scan_search_exhausted (table : List ScanFreq) (band : Int) (idx guard checks : Nat)
    (hidx : idx < table.length) (hg : table.length ≤ guard) :
    scan_search table band idx guard checks =
      some { idx := idx, guard := guard, checks := checks + 1 } := by
  rw [scan_search]
  have he : table[idx]? = some table[idx] := List.getElem?_eq_getElem hidx
  rw [he]
  have : ¬ guard < table.length := by omega
  simp [this]

/-- The search loop steps over `k` rejected entries, as long as the guard allows. -/
theorem scan_search_skip (table : List ScanFreq) (band : Int) :
    ∀ (k idx guard checks : Nat), idx < table.length → guard + k ≤ table.length →
      (∀ j < k, admitted table band ((idx + j) % table.length) = false) →
      scan_search table band idx guard checks =
        scan_search table band ((idx + k) % table.length) (guard + k) (checks + k) := by
  intro k
  induction k with
  | zero =>
    intro idx guard checks hidx _ _
    simp [Nat.mod_eq_of_lt hidx]
  | succ k ih =>
    intro idx guard checks hidx hg hrej
    have he : table[idx]? = some table[idx] := List.getElem?_eq_getElem hidx
    have h0 : admitted table band idx = false := by
      have := hrej 0 (Nat.succ_pos k)
      simpa [Nat.mod_eq_of_lt hidx] using this
    rw [admitted_eq_of_get he] at h0
    have hlt : guard < table.length := by omega
    conv_lhs => rw [scan_search]
    rw [he]
    simp only [h0, hlt, if_true, Bool.false_eq_true, if_false]
    have hN : 0 < table.length := by omega
    rw [ih ((idx + 1) % table.length) (guard + 1) (checks + 1) (Nat.mod_lt _ hN) (by omega)]
    · have e1 : ((idx + 1) % table.length + k) % table.length = (idx + (k + 1)) % table.length := by
        rw [Nat.mod_add_mod]; congr 1; omega
      rw [e1]
      congr 1 <;> omega
    · intro j hj
      have := hrej (j + 1) (by omega)
      have e1 : ((idx + 1) % table.length + j) % table.length = (idx + (j + 1)) % table.length := by
        rw [Nat.mod_add_mod]; congr 1; omega
      rw [e1]; exact this

theorem admitted_lt_length {table : List ScanFreq} {band : Int} {i : Nat}
    (h : admitted table band i = true) : i < table.length := by
  by_contra hn
  have : table[i]? = none := List.getElem?_eq_none (by omega)
  simp [admitted, this] at h

/-- With nothing admitted the search loop makes the full round of `N` advances
and comes back to the cursor it started from. -/
theorem scan_search_none_admitted (table : List ScanFreq) (band : Int) (c : Nat)
    (hc : c < table.length) (hnone : ∀ i, admitted table band i = false) :
    scan_search table band c 0 0 =
      some { idx := c, guard := table.length, checks := table.length + 1 } := by
  rw [scan_search_skip table band table.length c 0 0 hc (by omega) (fun j _ => hnone _)]
  have e1 : (c + table.length) % table.length = c := by
    rw [Nat.add_mod_right]; exact Nat.mod_eq_of_lt hc
  rw [e1, scan_search_exhausted table band c _ _ hc (by omega)]
  simp

/-- C2: when some table entry is admitted under `band`, the tick started with
the cursor at `c` tunes to (passes to `hackrf_set_freq` and stores in
`g_current_freq_hz`) the entry at index `(c + k) % N` for the least `k ≥ 0`
whose entry is admitted, and leaves the cursor at `(c + k + 1) % N`. -/
theorem scan_tick_first_admitted (table : List ScanFreq) (band : Int) (c : Nat)
    (hc : c < table.length) (hex : ∃ i, admitted table band i = true) :
    ∃ k e, k < table.length ∧
      admitted table band ((c + k) % table.length) = true ∧
      (∀ j < k, admitted table band ((c + j) % table.length) = false) ∧
      table[(c + k) % table.length]? = some e ∧
      scan_tick table band c =
        some { set_freq_arg := e.hz
               current_freq_hz := e.hz
               idx := (c + k + 1) % table.length
               checks := k + 1 } := by
  obtain ⟨i, hi⟩ := hex
  have hiN : i < table.length := admitted_lt_length hi
  have hP : ∃ k, admitted table band ((c + k) % table.length) = true := by
    refine ⟨(i + table.length - c) % table.length, ?_⟩
    have : (c + (i + table.length - c) % table.length) % table.length = i := by
      rw [Nat.add_mod_mod]
      have : c + (i + table.length - c) = i + table.length := by omega
      rw [this, Nat.add_mod_right]
      exact Nat.mod_eq_of_lt hiN
    rw [this]; exact hi
  have hk0 : (i + table.length - c) % table.length < table.length :=
    Nat.mod_lt _ (by omega)
  have hmin : ∀ j < Nat.find hP, admitted table band ((c + j) % table.length) = false := by
    intro j hj
    have := Nat.find_min hP hj
    simpa using this
  have hadm := Nat.find_spec hP
  have hkN : Nat.find hP < table.length := by
    refine lt_of_le_of_lt (Nat.find_min' hP ?_) hk0
    have : (c + (i + table.length - c) % table.length) % table.length = i := by
      rw [Nat.add_mod_mod]
      have : c + (i + table.length - c) = i + table.length := by omega
      rw [this, Nat.add_mod_right]
      exact Nat.mod_eq_of_lt hiN
    rw [this]; exact hi
  have hidx : (c + Nat.find hP) % table.length < table.length := admitted_lt_length hadm
  refine ⟨Nat.find hP, table[(c + Nat.find hP) % table.length], hkN, hadm, hmin,
    List.getElem?_eq_getElem hidx, ?_⟩
  have hs : scan_search table band c 0 0 =
      some { idx := (c + Nat.find hP) % table.length, guard := Nat.find hP,
             checks := Nat.find hP + 1 } := by
    rw [scan_search_skip table band (Nat.find hP) c 0 0 hc (by omega) hmin,
      scan_search_hit table band _ _ _ hadm]
    simp
  simp only [scan_tick, hs, List.getElem?_eq_getElem hidx]
  have e1 : ((c + Nat.find hP) % table.length + 1) % table.length
      = (c + Nat.find hP + 1) % table.length := Nat.mod_add_mod _ _ _
  rw [e1]

/-- Witness for C2: the reference table, band 2 (2.4 GHz), cursor 9. -/
theorem scan_tick_first_admitted_witness :
    9 < g_scan_freqs.length ∧ (∃ i, admitted g_scan_freqs 2 i = true) ∧
    ∃ k e, k < g_scan_freqs.length ∧
      admitted g_scan_freqs 2 ((9 + k) % g_scan_freqs.length) = true ∧
      (∀ j < k, admitted g_scan_freqs 2 ((9 + j) % g_scan_freqs.length) = false) ∧
      g_scan_freqs[(9 + k) % g_scan_freqs.length]? = some e ∧
      scan_tick g_scan_freqs 2 9 =
        some { set_freq_arg := e.hz
               current_freq_hz := e.hz
               idx := (9 + k + 1) % g_scan_freqs.length
               checks := k + 1 } :=
  ⟨by decide, ⟨8, by simp [admitted, g_scan_freqs, freq_allowed]; norm_num⟩,
    scan_tick_first_admitted g_scan_freqs 2 9 (by decide)
      ⟨8, by simp [admitted, g_scan_freqs, freq_allowed]; norm_num⟩⟩

/-- C3 as stated fails: on the one-entry table `[300 MHz]` under band 2, which
admits nothing, the search loop evaluates the band filter twice (once before
the single advance and once more when the guard has run out), which is more
than the table size 1. -/
theorem scan_search_checks_exceed_table_size :
    admitted [⟨300000000, "300 MHz"⟩] 2 0 = false ∧
    scan_search [⟨300000000, "300 MHz"⟩] 2 0 0 0 = some { idx := 0, guard := 1, checks := 2 } ∧
    scan_tick [⟨300000000, "300 MHz"⟩] 2 0 =
      some { set_freq_arg := 300000000, current_freq_hz := 300000000, idx := 0, checks := 2 } ∧
    ¬ (2 ≤ [(⟨300000000, "300 MHz"⟩ : ScanFreq)].length) := by
  have hs : scan_search [⟨300000000, "300 MHz"⟩] 2 0 0 0
      = some { idx := 0, guard := 1, checks := 2 } := by
    simp [scan_search, freq_allowed]; norm_num
  refine ⟨?_, hs, ?_, by simp⟩
  · simp [admitted, freq_allowed]; norm_num
  · simp [scan_tick, hs]

/-- C3 (amended): under a band that admits no entry of a table of size
`N ≥ 1`, the search loop started at any cursor `c < N` terminates after exactly
`N` advances of the cursor (`guard = N`) and `N + 1` evaluations of the band
filter. -/
theorem scan_search_terminates_bounded (table : List ScanFreq) (band : Int) (c : Nat)
    (hc : c < table.length) (hnone : ∀ i, admitted table band i = false) :
    ∃ s, scan_search table band c 0 0 = some s ∧
      s.guard = table.length ∧ s.checks = table.length + 1 :=
  ⟨_, scan_search_none_admitted table band c hc hnone, rfl, rfl⟩

theorem admitted_single_300_band2 (i : Nat) :
    admitted [⟨300000000, "300 MHz"⟩] 2 i = false := by
  cases i with
  | zero => simp [admitted, freq_allowed]; norm_num
  | succ n => simp [admitted]

/-- Witness for C3 (amended): the one-entry table `[300 MHz]`, band 2, cursor 0. -/
theorem scan_search_terminates_bounded_witness :
    0 < [(⟨300000000, "300 MHz"⟩ : ScanFreq)].length ∧
    (∀ i, admitted [⟨300000000, "300 MHz"⟩] 2 i = false) ∧
    ∃ s, scan_search [⟨300000000, "300 MHz"⟩] 2 0 0 0 = some s ∧
      s.guard = [(⟨300000000, "300 MHz"⟩ : ScanFreq)].length ∧
      s.checks = [(⟨300000000, "300 MHz"⟩ : ScanFreq)].length + 1 :=
  ⟨by decide, admitted_single_300_band2,
    scan_search_terminates_bounded [⟨300000000, "300 MHz"⟩] 2 0 (by decide)
      admitted_single_300_band2⟩

/-- C9: under a band that admits no entry of a table of size `N ≥ 1`, the tick
started with the cursor at `c < N` still tunes: after the `N` advances of the
bounded search the index is `c` again, the tick passes `table[c].hz` to
`hackrf_set_freq`, stores it in `g_current_freq_hz`, and leaves the cursor at
`(c + 1) % N`. -/
theorem scan_tick_none_admitted (table : List ScanFreq) (band : Int) (c : Nat)
    (hc : c < table.length) (hnone : ∀ i, admitted table band i = false) :
    (scan_search table band c 0 0).map (fun s => (s.idx, s.guard)) = some (c, table.length) ∧
    scan_tick table band c =
      some { set_freq_arg := table[c].hz
             current_freq_hz := table[c].hz
             idx := (c + 1) % table.length
             checks := table.length + 1 } := by
  have hs := scan_search_none_admitted table band c hc hnone
  refine ⟨by simp [hs], ?_⟩
  simp [scan_tick, hs, List.getElem?_eq_getElem hc]

theorem admitted_pair_band4 (i : Nat) :
    admitted [⟨300000000, "300 MHz"⟩, ⟨2400000000, "2400 MHz"⟩] 4 i = false := by
  match i with
  | 0 => simp [admitted, freq_allowed]; norm_num
  | 1 => simp [admitted, freq_allowed]; norm_num
  | n + 2 => simp [admitted]

/-- Witness for C9: the two-entry table `[300 MHz, 2400 MHz]`, band 4, cursor 1. -/
theorem scan_tick_none_admitted_witness :
    (∀ i, admitted [⟨300000000, "300 MHz"⟩, ⟨2400000000, "2400 MHz"⟩] 4 i = false) ∧
    (scan_search [⟨300000000, "300 MHz"⟩, ⟨2400000000, "2400 MHz"⟩] 4 1 0 0).map
      (fun s => (s.idx, s.guard)) = some (1, 2) ∧
    scan_tick [⟨300000000, "300 MHz"⟩, ⟨2400000000, "2400 MHz"⟩] 4 1 =
      some { set_freq_arg := 2400000000
             current_freq_hz := 2400000000
             idx := 0
             checks := 3 } :=
  ⟨admitted_pair_band4,
    scan_tick_none_admitted [⟨300000000, "300 MHz"⟩, ⟨2400000000, "2400 MHz"⟩] 4 1
      (by decide) admitted_pair_band4⟩

/-! ## Noise/power tracker -/

theorem rx_track_noise (g : Globals) (s : ℚ) :
    (rx_track g s).globals.noise_ema = (ema_locals g s).1 := by
  unfold rx_track; dsimp only; split_ifs <;> rfl

theorem rx_track_power (g : Globals) (s : ℚ) :
    (rx_track g s).globals.power_ema = (ema_locals g s).2 := by
  unfold rx_track; dsimp only; split_ifs <;> rfl

theorem rx_track_init_noise (g : Globals) (s : ℚ) :
    (rx_track g s).globals.init_noise = true := by
  unfold rx_track; dsimp only; split_ifs <;> rfl

theorem rx_track_detect_ratio (g : Globals) (s : ℚ) :
    (rx_track g s).globals.detect_ratio = g.detect_ratio := by
  unfold rx_track; dsimp only; split_ifs <;> rfl

theorem rx_track_ratio (g : Globals) (s : ℚ) :
    (rx_track g s).ratio =
      if (ema_locals g s).1 > 1 / 1000000000 then (ema_locals g s).2 / (ema_locals g s).1
      else 0 := by
  unfold rx_track; dsimp only; split_ifs <;> rfl

theorem fires_iff (g : Globals) (s : ℚ) :
    fires g s = true ↔ (rx_track g s).ratio > g.detect_ratio := by
  rw [rx_track_ratio]
  unfold fires rx_track; dsimp only
  split_ifs <;> simp_all

theorem rx_run_snoc (g : Globals) (l : List ℚ) (s : ℚ) :
    rx_run g (l ++ [s]) = (rx_track (rx_run g l) s).globals := by
  simp [rx_run, List.foldl_append]

theorem rx_run_replicate_succ (g : Globals) (n : Nat) (s : ℚ) :
    rx_run g (List.replicate (n + 1) s) = (rx_track (rx_run g (List.replicate n s)) s).globals := by
  rw [List.replicate_succ', rx_run_snoc]

theorem ema_locals_cold (g : Globals) (s : ℚ) (h : g.init_noise = false) :
    ema_locals g s = (s, s) := by
  simp [ema_locals, h]

theorem ema_locals_tracking (g : Globals) (s : ℚ) (h : g.init_noise = true) :
    ema_locals g s =
      (if s < g.noise_ema * g.detect_ratio then ema_update g.noise_ema s (1 / 20)
        else g.noise_ema,
       ema_update g.power_ema s (1 / 20)) := by
  simp [ema_locals, h]

/-- Cold start: both EMAs are seeded with the first sample. -/
theorem cold_start_seeds_aux (g : Globals) (s : ℚ) (hinit : g.init_noise = false) :
    (rx_track g s).globals.init_noise = true ∧
    (rx_track g s).globals.noise_ema = s ∧
    (rx_track g s).globals.power_ema = s ∧
    (rx_track g s).globals.detect_ratio = g.detect_ratio := by
  refine ⟨rx_track_init_noise g s, ?_, ?_, rx_track_detect_ratio g s⟩
  · rw [rx_track_noise, ema_locals_cold g s hinit]
  · rw [rx_track_power, ema_locals_cold g s hinit]

/-- Cold start: the ratio of line 143 is 1 above the `1e-9` guard and 0 below. -/
theorem cold_start_ratio_aux (g : Globals) (s : ℚ) (hinit : g.init_noise = false) :
    (rx_track g s).ratio = (if s > 1 / 1000000000 then 1 else 0) := by
  rw [rx_track_ratio, ema_locals_cold g s hinit]
  dsimp only
  split
  · rename_i h
    have : s ≠ 0 := by
      intro h0; rw [h0] at h; norm_num at h
    exact div_self this
  · rfl

/-- C4 as stated fails: a first buffer of two bytes 128 has power sample 0, and
the ratio computed after the cold start is then 0, not 1. -/
theorem cold_start_ratio_zero :
    g_init.init_noise = false ∧
    avg_power { buffer := [128, 128], valid_length := 2 } = 0 ∧
    (rx_track g_init (avg_power { buffer := [128, 128], valid_length := 2 })).ratio = 0 ∧
    (rx_track g_init (avg_power { buffer := [128, 128], valid_length := 2 })).ratio ≠ 1 := by
  have h0 : avg_power { buffer := [128, 128], valid_length := 2 } = 0 := by
    simp [avg_power, sum_power, List.range_succ]
  have hr : (rx_track g_init 0).ratio = 0 := by
    rw [rx_track_ratio, ema_locals_cold _ _ rfl]; norm_num
  refine ⟨rfl, h0, ?_, ?_⟩
  · rw [h0, hr]
  · rw [h0, hr]; norm_num

/-- C4 (amended): the first power sample `s` processed with `init_noise = false`
leaves noise EMA = power EMA = `s` (and `init_noise` set); the ratio computed
right afterwards is 1 when `s > 1e-9` and 0 otherwise; and no detection fires
when the threshold is at least 1 (it is 2.3 in the program). -/
theorem cold_start_seeds (g : Globals) (s : ℚ) (hinit : g.init_noise = false)
    (hthr : 1 ≤ g.detect_ratio) :
    (rx_track g s).globals.noise_ema = s ∧
    (rx_track g s).globals.power_ema = s ∧
    (rx_track g s).globals.init_noise = true ∧
    (rx_track g s).ratio = (if s > 1 / 1000000000 then 1 else 0) ∧
    (rx_track g s).published = none ∧
    fires g s = false := by
  have hr := cold_start_ratio_aux g s hinit
  have hnf : ¬ (rx_track g s).ratio > g.detect_ratio := by
    rw [hr]; split <;> linarith
  have hf : fires g s = false := by
    rw [← Bool.not_eq_true, fires_iff]; exact hnf
  have ha := cold_start_seeds_aux g s hinit
  refine ⟨ha.2.1, ha.2.2.1, ha.1, hr, ?_, hf⟩
  simpa [fires] using hf

/-- Witness for C4 (amended): the initial globals and power sample 7. -/
theorem cold_start_seeds_witness :
    g_init.init_noise = false ∧ 1 ≤ g_init.detect_ratio ∧
    (rx_track g_init 7).globals.noise_ema = 7 ∧
    (rx_track g_init 7).globals.power_ema = 7 ∧
    (rx_track g_init 7).globals.init_noise = true ∧
    (rx_track g_init 7).ratio = (if (7 : ℚ) > 1 / 1000000000 then 1 else 0) ∧
    (rx_track g_init 7).published = none ∧
    fires g_init 7 = false :=
  ⟨rfl, by norm_num [g_init], cold_start_seeds g_init 7 rfl (by norm_num [g_init])⟩

/-- One more buffer of power `P` in a tracking state whose two EMAs both equal
`P` changes neither EMA and fires nothing (threshold at least 1). -/
theorem rx_track_constant (g : Globals) (P : ℚ) (hinit : g.init_noise = true)
    (hn : g.noise_ema = P) (hp : g.power_ema = P) (hthr : 1 ≤ g.detect_ratio) :
    (rx_track g P).globals.noise_ema = P ∧ (rx_track g P).globals.power_ema = P ∧
    fires g P = false := by
  have hl : ema_locals g P = (P, P) := by
    rw [ema_locals_tracking g P hinit, hn, hp]
    simp [ema_update]
  have hr : ¬ (rx_track g P).ratio > g.detect_ratio := by
    rw [rx_track_ratio, hl]
    dsimp only
    split
    · rename_i h
      have : P ≠ 0 := by
        intro h0; rw [h0] at h; norm_num at h
      rw [div_self this]; linarith
    · linarith
  refine ⟨by rw [rx_track_noise, hl], by rw [rx_track_power, hl], ?_⟩
  rw [← Bool.not_eq_true, fires_iff]; exact hr

/-- State reached from an uninitialised state after `i + 1` buffers of power `P`. -/
theorem rx_run_constant (g : Globals) (P : ℚ) (hinit : g.init_noise = false)
    (hthr : 1 ≤ g.detect_ratio) (i : Nat) :
    (rx_run g (List.replicate (i + 1) P)).init_noise = true ∧
    (rx_run g (List.replicate (i + 1) P)).noise_ema = P ∧
    (rx_run g (List.replicate (i + 1) P)).power_ema = P ∧
    (rx_run g (List.replicate (i + 1) P)).detect_ratio = g.detect_ratio := by
  induction i with
  | zero =>
    have h := cold_start_seeds_aux g P hinit
    simpa [rx_run] using h
  | succ i ih =>
    obtain ⟨h1, h2, h3, h4⟩ := ih
    rw [rx_run_replicate_succ g (i + 1) P]
    have hc := rx_track_constant _ P h1 h2 h3 (by rw [h4]; exact hthr)
    exact ⟨rx_track_init_noise _ _, hc.1, hc.2.1, by rw [rx_track_detect_ratio, h4]⟩

/-- C5: starting from the uninitialised tracker with threshold 2.3, `n ≥ 1`
consecutive buffers of constant power `P ≥ 0` fire no detection on any of the
`n` buffers, and the noise EMA after each of them equals `P`.  Buffer number
`i + 1` is processed in the state reached after the first `i` buffers. -/
theorem constant_input_never_fires (g : Globals) (P : ℚ) (n : Nat)
    (hinit : g.init_noise = false) (hthr : g.detect_ratio = 23 / 10)
    (_hP : 0 ≤ P) (_hn : 1 ≤ n) :
    ∀ i < n,
      fires (rx_run g (List.replicate i P)) P = false ∧
      (rx_run g (List.replicate (i + 1) P)).noise_ema = P := by
  intro i _
  have hthr1 : 1 ≤ g.detect_ratio := by rw [hthr]; norm_num
  refine ⟨?_, (rx_run_constant g P hinit hthr1 i).2.1⟩
  cases i with
  | zero =>
    have hr := cold_start_ratio_aux g P hinit
    rw [← Bool.not_eq_true, fires_iff]
    simp only [List.replicate_zero, rx_run, List.foldl_nil]
    rw [hr]; split <;> linarith
  | succ j =>
    obtain ⟨h1, h2, h3, h4⟩ := rx_run_constant g P hinit hthr1 j
    exact (rx_track_constant _ P h1 h2 h3 (by rw [h4]; exact hthr1)).2.2

/-- Witness for C5: the initial globals, `P = 50`, `n = 3`. -/
theorem constant_input_never_fires_witness :
    g_init.init_noise = false ∧ g_init.detect_ratio = 23 / 10 ∧ (0 : ℚ) ≤ 50 ∧ 1 ≤ 3 ∧
    ∀ i < 3,
      fires (rx_run g_init (List.replicate i 50)) 50 = false ∧
      (rx_run g_init (List.replicate (i + 1) 50)).noise_ema = 50 :=
  ⟨rfl, rfl, by norm_num, by norm_num,
    constant_input_never_fires g_init 50 3 rfl rfl (by norm_num) (by norm_num)⟩

/-- Closed form of repeated `ema_update` toward a constant `v` with `a = 1/20`. -/
theorem ema_update_step_closed (P : ℚ) (j : Nat) :
    ema_update (P * (10 - 9 * (19 / 20) ^ j)) (10 * P) (1 / 20)
      = P * (10 - 9 * (19 / 20) ^ (j + 1)) := by
  unfold ema_update; ring

/-- State reached from the tracking state `noise = power = P > 0`, threshold 2.3,
after `j` buffers of power `10 * P`: the gate stays closed, so the noise EMA is
still `P`, and the power EMA is `P * (10 - 9 * 0.95 ^ j)`. -/
theorem rx_run_step (g : Globals) (P : ℚ) (hinit : g.init_noise = true)
    (hn : g.noise_ema = P) (hp : g.power_ema = P) (hthr : g.detect_ratio = 23 / 10)
    (hP : 0 < P) (j : Nat) :
    (rx_run g (List.replicate j (10 * P))).init_noise = true ∧
    (rx_run g (List.replicate j (10 * P))).noise_ema = P ∧
    (rx_run g (List.replicate j (10 * P))).power_ema = P * (10 - 9 * (19 / 20) ^ j) ∧
    (rx_run g (List.replicate j (10 * P))).detect_ratio = 23 / 10 := by
  induction j with
  | zero =>
    refine ⟨by simpa [rx_run] using hinit, by simpa [rx_run] using hn, ?_,
      by simpa [rx_run] using hthr⟩
    simp only [List.replicate_zero, rx_run, List.foldl_nil, pow_zero]
    rw [hp]; ring
  | succ j ih =>
    obtain ⟨h1, h2, h3, h4⟩ := ih
    rw [rx_run_replicate_succ g j (10 * P)]
    have hl := ema_locals_tracking _ (10 * P) h1
    rw [h2, h3, h4] at hl
    have hgate : ¬ (10 * P < P * (23 / 10)) := by
      intro h; nlinarith
    rw [if_neg hgate, ema_update_step_closed] at hl
    refine ⟨rx_track_init_noise _ _, ?_, ?_, ?_⟩
    · rw [rx_track_noise, hl]
    · rw [rx_track_power, hl]
    · rw [rx_track_detect_ratio, h4]

/-- Ratio of line 143 on buffer number `j + 1` of the step to `10 * P`. -/
theorem rx_track_step_ratio (g : Globals) (P : ℚ) (hinit : g.init_noise = true)
    (hn : g.noise_ema = P) (hp : g.power_ema = P) (hthr : g.detect_ratio = 23 / 10)
    (hP : 0 < P) (j : Nat) :
    (rx_track (rx_run g (List.replicate j (10 * P))) (10 * P)).ratio =
      if P > 1 / 1000000000 then 10 - 9 * (19 / 20) ^ (j + 1) else 0 := by
  obtain ⟨_, h2, h3, _⟩ := rx_run_step g P hinit hn hp hthr hP (j + 1)
  rw [rx_run_replicate_succ, rx_track_noise] at h2
  rw [rx_run_replicate_succ, rx_track_power] at h3
  rw [rx_track_ratio, h2, h3]
  split
  · exact mul_div_cancel_left₀ _ (ne_of_gt hP)
  · rfl

theorem pow_19_20_lt_iff (k : Nat) : ((19 / 20 : ℚ) ^ k < 77 / 90) ↔ 4 ≤ k := by
  constructor
  · intro h
    by_contra hk
    have hk3 : k ≤ 3 := by omega
    have : (19 / 20 : ℚ) ^ 3 ≤ (19 / 20 : ℚ) ^ k :=
      pow_le_pow_of_le_one (by norm_num) (by norm_num) hk3
    norm_num at this
    linarith
  · intro hk
    have : (19 / 20 : ℚ) ^ k ≤ (19 / 20 : ℚ) ^ 4 :=
      pow_le_pow_of_le_one (by norm_num) (by norm_num) hk
    norm_num at this
    linarith

/-- C7 as stated fails for `0 < P ≤ 1e-9`: from the tracking state
`noise = power = 1e-9` with threshold 2.3, the 4th buffer of power `10 * P`
fires no detection although the power EMA after it divided by the noise EMA
exceeds 2.3, because the ratio is forced to 0 when the noise EMA is not above
`1e-9`. -/
theorem step_no_detection_tiny_noise :
    (0 : ℚ) < 1 / 1000000000 ∧
    fires (rx_run (tracking (1 / 1000000000) (1 / 1000000000))
            (List.replicate 3 (10 * (1 / 1000000000)))) (10 * (1 / 1000000000)) = false ∧
    (rx_run (tracking (1 / 1000000000) (1 / 1000000000))
      (List.replicate 4 (10 * (1 / 1000000000)))).power_ema /
    (rx_run (tracking (1 / 1000000000) (1 / 1000000000))
      (List.replicate 4 (10 * (1 / 1000000000)))).noise_ema > 23 / 10 := by
  refine ⟨by norm_num, ?_, ?_⟩
  · rw [← Bool.not_eq_true, fires_iff,
      rx_track_step_ratio _ (1 / 1000000000) rfl rfl rfl rfl (by norm_num) 3,
      (rx_run_step _ (1 / 1000000000) rfl rfl rfl rfl (by norm_num) 3).2.2.2]
    norm_num
  · obtain ⟨_, h2, h3, _⟩ := rx_run_step
      (tracking (1 / 1000000000) (1 / 1000000000))
      (1 / 1000000000) rfl rfl rfl rfl (by norm_num) 4
    rw [h2, h3]; norm_num

/-- C7 (amended): for every `P > 1e-9`, from the tracking state
`noise = power = P` with threshold 2.3 and consecutive buffers of power
`10 * P`: the power EMA after `k` buffers is `P * (10 - 9 * 0.95 ^ k)`; a
detection fires on the `k`-th buffer exactly when the power EMA after that
buffer divided by the noise EMA exceeds 2.3; and it fires on the `k`-th buffer
exactly when `k ≥ 4` (the 4th is the first, and every later one fires). -/
theorem step_detection (g : Globals) (P : ℚ) (k : Nat) (hinit : g.init_noise = true)
    (hn : g.noise_ema = P) (hp : g.power_ema = P) (hthr : g.detect_ratio = 23 / 10)
    (hP : 1 / 1000000000 < P) (hk : 1 ≤ k) :
    (rx_run g (List.replicate k (10 * P))).power_ema = P * (10 - 9 * (19 / 20) ^ k) ∧
    (fires (rx_run g (List.replicate (k - 1) (10 * P))) (10 * P) = true ↔
      (rx_run g (List.replicate k (10 * P))).power_ema /
        (rx_run g (List.replicate k (10 * P))).noise_ema > 23 / 10) ∧
    (fires (rx_run g (List.replicate (k - 1) (10 * P))) (10 * P) = true ↔ 4 ≤ k) := by
  have hP0 : 0 < P := lt_trans (by norm_num) hP
  obtain ⟨j, rfl⟩ : ∃ j, k = j + 1 := ⟨k - 1, by omega⟩
  obtain ⟨_, h2, h3, _⟩ := rx_run_step g P hinit hn hp hthr hP0 (j + 1)
  have h4 := (rx_run_step g P hinit hn hp hthr hP0 j).2.2.2
  have hr := rx_track_step_ratio g P hinit hn hp hthr hP0 j
  rw [if_pos hP] at hr
  have hdiv : P * (10 - 9 * (19 / 20) ^ (j + 1)) / P = 10 - 9 * (19 / 20) ^ (j + 1) :=
    mul_div_cancel_left₀ _ (ne_of_gt hP0)
  have hf : fires (rx_run g (List.replicate j (10 * P))) (10 * P) = true ↔
      10 - 9 * (19 / 20 : ℚ) ^ (j + 1) > 23 / 10 := by
    rw [fires_iff, hr, h4]
  refine ⟨h3, ?_, ?_⟩
  · rw [Nat.add_sub_cancel, h2, h3, hdiv]; exact hf
  · rw [Nat.add_sub_cancel, hf, ← pow_19_20_lt_iff (j + 1)]
    constructor <;> intro h <;> linarith

/-- Witness for C7 (amended): `P = 100`, the 4th buffer of the step. -/
theorem step_detection_witness :
    (tracking 100 100).init_noise = true ∧ (tracking 100 100).noise_ema = 100 ∧
    (tracking 100 100).power_ema = 100 ∧ (tracking 100 100).detect_ratio = 23 / 10 ∧
    (1 / 1000000000 : ℚ) < 100 ∧ 1 ≤ 4 ∧
    (rx_run (tracking 100 100) (List.replicate 4 (10 * 100))).power_ema
      = 100 * (10 - 9 * (19 / 20) ^ 4) ∧
    (fires (rx_run (tracking 100 100) (List.replicate (4 - 1) (10 * 100))) (10 * 100) = true ↔
      (rx_run (tracking 100 100) (List.replicate 4 (10 * 100))).power_ema /
        (rx_run (tracking 100 100) (List.replicate 4 (10 * 100))).noise_ema > 23 / 10) ∧
    (fires (rx_run (tracking 100 100) (List.replicate (4 - 1) (10 * 100))) (10 * 100) = true ↔
      4 ≤ 4) :=
  ⟨rfl, rfl, rfl, rfl, by norm_num, by norm_num,
    step_detection (tracking 100 100) 100 4 rfl rfl rfl rfl (by norm_num) (by norm_num)⟩

/-! ## Power estimator -/

/-- The accumulation loop computes the finite sum of the squared magnitudes. -/
theorem sum_power_eq_sum (buf : List Nat) (count : Nat) :
    sum_power buf count =
      ∑ i in Finset.range count,
        ((((buf.getD (2 * i) 0 : Int) - 128) ^ 2 + ((buf.getD (2 * i + 1) 0 : Int) - 128) ^ 2 :
          Int) : ℚ) := by
  unfold sum_power
  induction count with
  | zero => simp
  | succ n ih =>
    rw [List.range_succ, List.foldl_append, ih, Finset.sum_range_succ]
    simp only [List.foldl_cons, List.foldl_nil]
    push_cast
    ring

/-- C10: for a buffer with at least one I/Q pair (`count = valid_length / 2 ≥ 1`)
the computed `avg_power` is the sum over `i < count` of
`(buf[2i] - 128)^2 + (buf[2i+1] - 128)^2` divided by `count`, it is `≥ 0`, and
it is the power sample `rx_callback` hands to the tracker while scanning. -/
theorem avg_power_mean (t : hackrf_transfer) (hcount : 1 ≤ t.valid_length / 2) :
    avg_power t =
      (∑ i in Finset.range (t.valid_length / 2),
        ((((t.buffer.getD (2 * i) 0 : Int) - 128) ^ 2 +
          ((t.buffer.getD (2 * i + 1) 0 : Int) - 128) ^ 2 : Int) : ℚ)) /
        ((t.valid_length / 2 : Nat) : ℚ) ∧
    0 ≤ avg_power t ∧
    (∀ g : Globals, g.scanning = true →
      rx_callback g t = (0, (rx_track g (avg_power t)).globals)) := by
  have he : avg_power t =
      (∑ i in Finset.range (t.valid_length / 2),
        ((((t.buffer.getD (2 * i) 0 : Int) - 128) ^ 2 +
          ((t.buffer.getD (2 * i + 1) 0 : Int) - 128) ^ 2 : Int) : ℚ)) /
        ((t.valid_length / 2 : Nat) : ℚ) := by
    unfold avg_power
    rw [sum_power_eq_sum]
  refine ⟨he, ?_, ?_⟩
  · rw [he]
    apply div_nonneg
    · apply Finset.sum_nonneg
      intro i _
      exact_mod_cast add_nonneg (sq_nonneg _) (sq_nonneg _)
    · exact Nat.cast_nonneg _
  · intro g hg
    have : ¬ t.valid_length / 2 = 0 := by omega
    simp [rx_callback, hg, this]

/-- Witness for C10: the four-byte buffer `[128, 128, 130, 127]` (two I/Q pairs). -/
theorem avg_power_mean_witness :
    1 ≤ ({ buffer := [128, 128, 130, 127], valid_length := 4 } : hackrf_transfer).valid_length / 2 ∧
    avg_power { buffer := [128, 128, 130, 127], valid_length := 4 } = 5 / 2 ∧
    0 ≤ avg_power { buffer := [128, 128, 130, 127], valid_length := 4 } := by
  have h := avg_power_mean { buffer := [128, 128, 130, 127], valid_length := 4 } (by decide)
  refine ⟨by decide, ?_, h.2.1⟩
  rw [h.1]
  simp [Finset.sum_range_succ]
  norm_num

/-! ## Tracker invariants -/

theorem avg_power_nonneg (t : hackrf_transfer) : 0 ≤ avg_power t := by
  unfold avg_power
  rw [sum_power_eq_sum]
  apply div_nonneg
  · apply Finset.sum_nonneg
    intro i _
    exact_mod_cast add_nonneg (sq_nonneg _) (sq_nonneg _)
  · exact Nat.cast_nonneg _

theorem ema_update_nonneg (prev v : ℚ) (hp : 0 ≤ prev) (hv : 0 ≤ v) :
    0 ≤ ema_update prev v (1 / 20) := by
  unfold ema_update; linarith

/-- One tracker step keeps both EMAs non-negative. -/
theorem rx_track_nonneg (g : Globals) (s : ℚ) (hs : 0 ≤ s)
    (hn : 0 ≤ g.noise_ema) (hp : 0 ≤ g.power_ema) :
    0 ≤ (rx_track g s).globals.noise_ema ∧ 0 ≤ (rx_track g s).globals.power_ema := by
  rw [rx_track_noise, rx_track_power]
  cases hi : g.init_noise with
  | false => rw [ema_locals_cold g s hi]; exact ⟨hs, hs⟩
  | true =>
    rw [ema_locals_tracking g s hi]
    refine ⟨?_, ema_update_nonneg _ _ hp hs⟩
    dsimp only
    split
    · exact ema_update_nonneg _ _ hn hs
    · exact hn

theorem rx_callback_nonneg (g : Globals) (t : hackrf_transfer)
    (hn : 0 ≤ g.noise_ema) (hp : 0 ≤ g.power_ema) :
    0 ≤ (rx_callback g t).2.noise_ema ∧ 0 ≤ (rx_callback g t).2.power_ema := by
  unfold rx_callback
  split_ifs
  · exact ⟨hn, hp⟩
  · exact ⟨hn, hp⟩
  · exact rx_track_nonneg g _ (avg_power_nonneg t) hn hp

theorem rx_callback_run_snoc (g : Globals) (ts : List hackrf_transfer) (t : hackrf_transfer) :
    rx_callback_run g (ts ++ [t]) = (rx_callback (rx_callback_run g ts) t).2 := by
  simp [rx_callback_run, List.foldl_append]

/-- C11: started from globals whose two EMAs are non-negative (initially both
are 0), after every sequence of buffers processed by `rx_callback`, hence after
every buffer, the noise EMA and the power EMA are `≥ 0`; the same holds for the
tracker run on any sequence of non-negative power samples. -/
theorem ema_nonneg (g : Globals) (hn : 0 ≤ g.noise_ema) (hp : 0 ≤ g.power_ema) :
    (∀ ts : List hackrf_transfer,
      0 ≤ (rx_callback_run g ts).noise_ema ∧ 0 ≤ (rx_callback_run g ts).power_ema) ∧
    (∀ samples : List ℚ, (∀ s ∈ samples, 0 ≤ s) →
      0 ≤ (rx_run g samples).noise_ema ∧ 0 ≤ (rx_run g samples).power_ema) := by
  constructor
  · intro ts
    induction ts using List.reverseRecOn with
    | nil => exact ⟨hn, hp⟩
    | append_singleton ts t ih =>
      rw [rx_callback_run_snoc]
      exact rx_callback_nonneg _ t ih.1 ih.2
  · intro samples
    induction samples using List.reverseRecOn with
    | nil => intro _; exact ⟨hn, hp⟩
    | append_singleton l s ih =>
      intro hall
      rw [rx_run_snoc]
      have hl := ih (fun x hx => hall x (List.mem_append_left _ hx))
      exact rx_track_nonneg _ s (hall s (by simp)) hl.1 hl.2

/-- Witness for C11: the globals after a successful `nativeStartScan` from the
initial state; two buffers, then the samples 100 and 2900. -/
theorem ema_nonneg_witness :
    (0 : ℚ) ≤ (nativeStartScan driver_ok b_init).2.globals.noise_ema ∧
    (0 : ℚ) ≤ (nativeStartScan driver_ok b_init).2.globals.power_ema ∧
    0 ≤ (rx_callback_run (nativeStartScan driver_ok b_init).2.globals
          [{ buffer := [138, 128], valid_length := 2 },
           { buffer := [178, 148], valid_length := 2 }]).noise_ema ∧
    0 ≤ (rx_run (nativeStartScan driver_ok b_init).2.globals [100, 2900]).power_ema :=
  ⟨le_refl _, le_refl _,
    ((ema_nonneg (nativeStartScan driver_ok b_init).2.globals (le_refl _) (le_refl _)).1
      [{ buffer := [138, 128], valid_length := 2 },
       { buffer := [178, 148], valid_length := 2 }]).1,
    ((ema_nonneg (nativeStartScan driver_ok b_init).2.globals (le_refl _) (le_refl _)).2
      [100, 2900] (by intro s hs; simp at hs; rcases hs with h | h <;> rw [h] <;> norm_num)).2⟩

/-- C13: a buffer with no complete I/Q pair (`valid_length / 2 = 0`) makes
`rx_callback` return 0 and leave every global unchanged, in particular the
noise EMA, the power EMA, `init_noise` and `g_last_detection`. -/
theorem zero_length_noop (g : Globals) (t : hackrf_transfer)
    (hzero : t.valid_length / 2 = 0) :
    rx_callback g t = (0, g) ∧
    (rx_callback g t).1 = 0 ∧
    (rx_callback g t).2.noise_ema = g.noise_ema ∧
    (rx_callback g t).2.power_ema = g.power_ema ∧
    (rx_callback g t).2.init_noise = g.init_noise ∧
    (rx_callback g t).2.last_detection = g.last_detection := by
  have h : rx_callback g t = (0, g) := by
    unfold rx_callback
    split_ifs <;> rfl
  rw [h]
  exact ⟨rfl, rfl, rfl, rfl, rfl, rfl⟩

/-- Witness for C13: a one-byte buffer while scanning in the tracking state
`noise = 100`, `power = 240`. -/
theorem zero_length_noop_witness :
    ({ buffer := [200], valid_length := 1 } : hackrf_transfer).valid_length / 2 = 0 ∧
    rx_callback { tracking 100 240 with scanning := true } { buffer := [200], valid_length := 1 }
      = (0, { tracking 100 240 with scanning := true }) :=
  ⟨by decide,
    (zero_length_noop { tracking 100 240 with scanning := true }
      { buffer := [200], valid_length := 1 } (by decide)).1⟩

theorem rx_run_detect_ratio (g : Globals) (l : List ℚ) :
    (rx_run g l).detect_ratio = g.detect_ratio := by
  induction l using List.reverseRecOn with
  | nil => rfl
  | append_singleton l s ih => rw [rx_run_snoc, rx_track_detect_ratio, ih]

theorem rx_run_cons (g : Globals) (s : ℚ) (l : List ℚ) :
    rx_run g (s :: l) = rx_run (rx_track g s).globals l := by
  simp [rx_run]

/-- A tracking state with noise EMA 0: a non-negative sample leaves the noise
EMA at 0, gives ratio 0 and fires nothing (threshold `≥ 0`). -/
theorem rx_track_zero_noise (g : Globals) (s : ℚ) (hinit : g.init_noise = true)
    (hn : g.noise_ema = 0) (hthr : 0 ≤ g.detect_ratio) (hs : 0 ≤ s) :
    (rx_track g s).globals.noise_ema = 0 ∧ (rx_track g s).ratio = 0 ∧ fires g s = false := by
  have hl : (ema_locals g s).1 = 0 := by
    rw [ema_locals_tracking g s hinit, hn]
    dsimp only
    rw [if_neg (by rw [zero_mul]; exact not_lt.mpr hs)]
  have hr : (rx_track g s).ratio = 0 := by
    rw [rx_track_ratio, hl]; norm_num
  refine ⟨by rw [rx_track_noise, hl], hr, ?_⟩
  rw [← Bool.not_eq_true, fires_iff, hr]
  exact not_lt.mpr hthr

/-- After a first sample 0 and any non-negative samples the noise EMA is 0. -/
theorem rx_run_zero_first (g : Globals) (hinit : g.init_noise = false)
    (l : List ℚ) (hl : ∀ s ∈ l, 0 ≤ s) :
    (rx_run g (0 :: l)).init_noise = true ∧ (rx_run g (0 :: l)).noise_ema = 0 := by
  induction l using List.reverseRecOn with
  | nil =>
    have h := cold_start_seeds_aux g 0 hinit
    simpa [rx_run] using ⟨h.1, h.2.1⟩
  | append_singleton l s ih =>
    have hl' := ih (fun x hx => hl x (List.mem_append_left _ hx))
    rw [← List.cons_append, rx_run_snoc]
    refine ⟨rx_track_init_noise _ _, ?_⟩
    rw [rx_track_noise, ema_locals_tracking _ s hl'.1, hl'.2]
    dsimp only
    rw [if_neg (by rw [zero_mul]; exact not_lt.mpr (hl s (by simp)))]

/-- A buffer all of whose bytes are 128 has average power 0. -/
theorem avg_power_all_128 (t : hackrf_transfer)
    (h : ∀ i, i < 2 * (t.valid_length / 2) → t.buffer.getD i 0 = 128) : avg_power t = 0 := by
  unfold avg_power
  rw [sum_power_eq_sum, Finset.sum_eq_zero, zero_div]
  intro i hi
  have hi' : i < t.valid_length / 2 := Finset.mem_range.mp hi
  rw [h (2 * i) (by omega), h (2 * i + 1) (by omega)]
  norm_num

/-- One tracker step keeps `0 ≤ noise ≤ power` (threshold `≥ 1`). -/
theorem rx_track_noise_le_power (g : Globals) (s : ℚ) (hinit : g.init_noise = true)
    (hthr : 1 ≤ g.detect_ratio) (hs : 0 ≤ s) (hn : 0 ≤ g.noise_ema)
    (hnp : g.noise_ema ≤ g.power_ema) :
    0 ≤ (rx_track g s).globals.noise_ema ∧
    (rx_track g s).globals.noise_ema ≤ (rx_track g s).globals.power_ema := by
  have hp : 0 ≤ g.power_ema := le_trans hn hnp
  refine ⟨(rx_track_nonneg g s hs hn hp).1, ?_⟩
  rw [rx_track_noise, rx_track_power, ema_locals_tracking g s hinit]
  dsimp only
  split
  · unfold ema_update; linarith
  · rename_i hgate
    have h1 : g.noise_ema * g.detect_ratio ≤ s := not_lt.mp hgate
    have h2 : g.noise_ema ≤ g.noise_ema * g.detect_ratio := by nlinarith
    unfold ema_update; linarith

/-- After at least one buffer from the uninitialised state: `0 ≤ noise ≤ power`. -/
theorem rx_run_noise_le_power (g : Globals) (hinit : g.init_noise = false)
    (hthr : 1 ≤ g.detect_ratio) (s0 : ℚ) (hs0 : 0 ≤ s0) (l : List ℚ) (hl : ∀ s ∈ l, 0 ≤ s) :
    (rx_run g (s0 :: l)).init_noise = true ∧ 0 ≤ (rx_run g (s0 :: l)).noise_ema ∧
    (rx_run g (s0 :: l)).noise_ema ≤ (rx_run g (s0 :: l)).power_ema := by
  induction l using List.reverseRecOn with
  | nil =>
    have h := cold_start_seeds_aux g s0 hinit
    simp only [rx_run, List.foldl_cons, List.foldl_nil]
    rw [h.2.1, h.2.2.1]
    exact ⟨h.1, hs0, le_refl _⟩
  | append_singleton l s ih =>
    obtain ⟨h1, h2, h3⟩ := ih (fun x hx => hl x (List.mem_append_left _ hx))
    rw [← List.cons_append, rx_run_snoc]
    have h4 : 1 ≤ (rx_run g (s0 :: l)).detect_ratio := by
      rw [rx_run_detect_ratio]; exact hthr
    exact ⟨rx_track_init_noise _ _,
      rx_track_noise_le_power _ s h1 h4 (hl s (by simp)) h2 h3⟩

/-- C18: with a threshold `≥ 1`, for every non-empty sequence of non-negative
power samples processed from the uninitialised state, the noise EMA is at most
the power EMA after the last (hence after every) buffer, and the ratio computed
on that buffer is `≥ 1` whenever the noise EMA exceeds `1e-9`. -/
theorem noise_le_power (g : Globals) (hinit : g.init_noise = false)
    (hthr : 1 ≤ g.detect_ratio) (l : List ℚ) (s : ℚ)
    (hl : ∀ x ∈ l, 0 ≤ x) (hs : 0 ≤ s) :
    (rx_run g (l ++ [s])).noise_ema ≤ (rx_run g (l ++ [s])).power_ema ∧
    ((rx_run g (l ++ [s])).noise_ema > 1 / 1000000000 →
      1 ≤ (rx_track (rx_run g l) s).ratio) := by
  have hall : ∀ x ∈ l ++ [s], 0 ≤ x := by
    intro x hx
    rcases List.mem_append.mp hx with h | h
    · exact hl x h
    · simp at h; rw [h]; exact hs
  have hinv : (rx_run g (l ++ [s])).noise_ema ≤ (rx_run g (l ++ [s])).power_ema := by
    cases hls : l ++ [s] with
    | nil => simp at hls
    | cons s0 l' =>
      rw [hls] at hall
      exact (rx_run_noise_le_power g hinit hthr s0 (hall s0 (by simp)) l'
        (fun x hx => hall x (List.mem_cons_of_mem _ hx))).2.2
  refine ⟨hinv, fun hpos => ?_⟩
  rw [rx_run_snoc] at hinv hpos
  rw [rx_track_ratio]
  rw [rx_track_noise] at hinv hpos
  rw [rx_track_power] at hinv
  rw [if_pos hpos]
  rw [le_div_iff₀ (lt_trans (by norm_num) hpos)]
  linarith

/-- Witness for C18: the initial globals and the samples 100, 2900, 0. -/
theorem noise_le_power_witness :
    g_init.init_noise = false ∧ 1 ≤ g_init.detect_ratio ∧
    (rx_run g_init ([100, 2900] ++ [0])).noise_ema
      ≤ (rx_run g_init ([100, 2900] ++ [0])).power_ema ∧
    ((rx_run g_init ([100, 2900] ++ [0])).noise_ema > 1 / 1000000000 →
      1 ≤ (rx_track (rx_run g_init [100, 2900]) 0).ratio) :=
  ⟨rfl, by norm_num [g_init],
    noise_le_power g_init rfl (by norm_num [g_init]) [100, 2900] 0
      (by intro x hx; simp at hx; rcases hx with h | h <;> rw [h] <;> norm_num) (le_refl _)⟩

/-! ## Scan restart and the last detection message -/

theorem rx_callback_scanning (g : Globals) (t : hackrf_transfer) (hs : g.scanning = true)
    (hc : t.valid_length / 2 ≠ 0) :
    (rx_callback g t).2 = (rx_track g (avg_power t)).globals := by
  simp [rx_callback, hs, hc]

theorem rx_track_scanning (g : Globals) (s : ℚ) :
    (rx_track g s).globals.scanning = g.scanning := by
  unfold rx_track; dsimp only; split_ifs <;> rfl

theorem rx_track_current_freq (g : Globals) (s : ℚ) :
    (rx_track g s).globals.current_freq_hz = g.current_freq_hz := by
  unfold rx_track; dsimp only; split_ifs <;> rfl

/-- A buffer that fires no detection leaves `g_last_detection` as it was. -/
theorem rx_track_last_of_not_fires (g : Globals) (s : ℚ) (h : fires g s = false) :
    (rx_track g s).globals.last_detection = g.last_detection := by
  unfold fires rx_track at h
  unfold rx_track
  dsimp only at h ⊢
  split_ifs at h ⊢ <;> simp_all

/-- A buffer that fires stores the message it publishes, built from the tuned
frequency and the two EMAs just stored. -/
theorem rx_track_last_of_fires (g : Globals) (s : ℚ) (h : fires g s = true) :
    (rx_track g s).globals.last_detection = (rx_track g s).published ∧
    (rx_track g s).published =
      some (Message.detection ((g.current_freq_hz : ℚ) / 1000000)
        (c_int (rx_track g s).globals.power_ema) (c_int (rx_track g s).globals.noise_ema)
        (rx_track g s).ratio) := by
  unfold fires rx_track at h
  unfold rx_track
  dsimp only at h ⊢
  split_ifs at h ⊢ <;> simp_all

theorem c_int_natCast (n : Nat) : c_int (n : ℚ) = n := by
  simp [c_int]

/-- Truncation toward zero of a non-negative value is its integer part. -/
theorem c_int_of_nonneg (x : ℚ) (hx : 0 ≤ x) :
    0 ≤ c_int x ∧ (c_int x : ℚ) ≤ x ∧ x < (c_int x : ℚ) + 1 := by
  have h : c_int x = ⌊x⌋ := by simp [c_int, hx]
  rw [h]
  exact ⟨Int.floor_nonneg.mpr hx, Int.floor_le x, Int.lt_floor_add_one x⟩

theorem ten_log10_bounds :
    (7 / 2 : ℝ) < 10 * Real.logb 10 (((5 / 2 : ℚ) : ℝ)) ∧
    10 * Real.logb 10 (((5 / 2 : ℚ) : ℝ)) < 9 / 2 := by
  have h10 : (0 : ℝ) < Real.log 10 := Real.log_pos (by norm_num)
  have hx : ((5 / 2 : ℚ) : ℝ) = 5 / 2 := by norm_num
  rw [hx]
  have hlo : (7 : ℝ) * Real.log 10 < 20 * Real.log (5 / 2) := by
    have h1 : Real.log ((10 : ℝ) ^ 7) < Real.log ((5 / 2 : ℝ) ^ 20) :=
      Real.log_lt_log (by norm_num) (by norm_num)
    rw [Real.log_pow, Real.log_pow] at h1
    exact_mod_cast h1
  have hhi : (20 : ℝ) * Real.log (5 / 2) < 9 * Real.log 10 := by
    have h1 : Real.log ((5 / 2 : ℝ) ^ 20) < Real.log ((10 : ℝ) ^ 9) :=
      Real.log_lt_log (by norm_num) (by norm_num)
    rw [Real.log_pow, Real.log_pow] at h1
    exact_mod_cast h1
  unfold Real.logb
  constructor
  · rw [← mul_div_assoc, lt_div_iff₀ h10]; linarith
  · rw [← mul_div_assoc, div_lt_iff₀ h10]; linarith

/-- C14: with threshold 2.0, when the noise EMA is 100 and the power EMA is 250
after the update, the ratio is exactly 2.5, it exceeds the threshold, a
detection fires, the published (and stored) message carries POWER = 250 and
NOISE = 100 and the ratio 2.5, and `10 * log10(2.5)` lies strictly between 3.5
and 4.5, so `DELTA_DB` printed with zero decimals is 4. -/
theorem detection_scenario (g : Globals) (s : ℚ) (hthr : g.detect_ratio = 2)
    (hn : (rx_track g s).globals.noise_ema = 100)
    (hp : (rx_track g s).globals.power_ema = 250) :
    (rx_track g s).ratio = 5 / 2 ∧
    (rx_track g s).ratio > g.detect_ratio ∧
    fires g s = true ∧
    (rx_track g s).published =
      some (Message.detection ((g.current_freq_hz : ℚ) / 1000000) 250 100 (5 / 2)) ∧
    nativeGetLastDetection (rx_track g s).globals = (rx_track g s).published ∧
    (7 / 2 : ℝ) < 10 * Real.logb 10 (((rx_track g s).ratio : ℚ) : ℝ) ∧
    10 * Real.logb 10 (((rx_track g s).ratio : ℚ) : ℝ) < 9 / 2 := by
  have hn' := hn
  have hp' := hp
  rw [rx_track_noise] at hn'
  rw [rx_track_power] at hp'
  have hr : (rx_track g s).ratio = 5 / 2 := by
    rw [rx_track_ratio, hn', hp']; norm_num
  have hgt : (rx_track g s).ratio > g.detect_ratio := by
    rw [hr, hthr]; norm_num
  have hf : fires g s = true := (fires_iff g s).mpr hgt
  obtain ⟨hlast, hpub⟩ := rx_track_last_of_fires g s hf
  rw [hp, hn, hr] at hpub
  have h250 : c_int (250 : ℚ) = 250 := by exact_mod_cast c_int_natCast 250
  have h100 : c_int (100 : ℚ) = 100 := by exact_mod_cast c_int_natCast 100
  rw [h250, h100] at hpub
  refine ⟨hr, hgt, hf, hpub, hlast, ?_, ?_⟩
  · rw [hr]; exact ten_log10_bounds.1
  · rw [hr]; exact ten_log10_bounds.2

/-- Witness for C14: noise = 100, power = 250, threshold 2.0, tuned to
300 MHz, and a buffer of power 250 (gate closed, power EMA unchanged). -/
theorem detection_scenario_witness :
    ({ tracking 100 250 with detect_ratio := 2 } : Globals).detect_ratio = 2 ∧
    (rx_track { tracking 100 250 with detect_ratio := 2 } 250).globals.noise_ema = 100 ∧
    (rx_track { tracking 100 250 with detect_ratio := 2 } 250).globals.power_ema = 250 ∧
    (rx_track { tracking 100 250 with detect_ratio := 2 } 250).ratio = 5 / 2 ∧
    fires { tracking 100 250 with detect_ratio := 2 } 250 = true ∧
    (rx_track { tracking 100 250 with detect_ratio := 2 } 250).published =
      some (Message.detection 300 250 100 (5 / 2)) := by
  have hn : (rx_track { tracking 100 250 with detect_ratio := 2 } 250).globals.noise_ema
      = 100 := by
    rw [rx_track_noise, ema_locals_tracking _ _ rfl]
    norm_num [tracking, g_init]
  have hp : (rx_track { tracking 100 250 with detect_ratio := 2 } 250).globals.power_ema
      = 250 := by
    rw [rx_track_power, ema_locals_tracking _ _ rfl]
    norm_num [tracking, g_init, ema_update]
  have h := detection_scenario { tracking 100 250 with detect_ratio := 2 } 250 rfl hn hp
  refine ⟨rfl, hn, hp, h.1, h.2.2.1, ?_⟩
  rw [h.2.2.2.1]
  norm_num [tracking, g_init]

/-! ## Hop sequences -/

theorem freq_allowed_eq_hz (hz : Nat) (band : Int) :
    freq_allowed hz band = freq_allowed_hz hz band := by
  have h1 := mhz_ge_iff hz 1100
  have h2 := mhz_le_iff hz 1400
  have h3 := mhz_ge_iff hz 2300
  have h4 := mhz_le_iff hz 2500
  have h5 := mhz_ge_iff hz 3200
  have h6 := mhz_le_iff hz 3400
  have h7 := mhz_ge_iff hz 5700
  have h8 := mhz_le_iff hz 5900
  norm_num at h1 h2 h3 h4 h5 h6 h7 h8
  unfold freq_allowed freq_allowed_hz
  simp only [ge_iff_le, h1, h2, h3, h4, h5, h6, h7, h8]

theorem mem_admissible (table : List ScanFreq) (band : Int) (i : Nat) :
    i ∈ admissible table band ↔ admitted table band i = true := by
  unfold admissible
  rw [List.mem_filter, List.mem_range]
  exact ⟨fun h => h.2, fun h => ⟨admitted_lt_length h, h⟩⟩

theorem hz_at_of_get {table : List ScanFreq} {i : Nat} {e : ScanFreq}
    (h : table[i]? = some e) : hz_at table i = e.hz := by
  simp [hz_at, h]

/-- One tick, given the least number `k` of advances that reaches an admitted
entry: the tick tunes to index `(c + k) % N` and leaves the cursor one past it. -/
theorem scan_tick_of_least (table : List ScanFreq) (band : Int) (c k : Nat)
    (hc : c < table.length) (hk : k ≤ table.length)
    (hadm : admitted table band ((c + k) % table.length) = true)
    (hmin : ∀ j < k, admitted table band ((c + j) % table.length) = false) :
    scan_tick table band c =
      some { set_freq_arg := hz_at table ((c + k) % table.length)
             current_freq_hz := hz_at table ((c + k) % table.length)
             idx := ((c + k) % table.length + 1) % table.length
             checks := k + 1 } := by
  have hidx : (c + k) % table.length < table.length := admitted_lt_length hadm
  have hs : scan_search table band c 0 0 =
      some { idx := (c + k) % table.length, guard := k, checks := k + 1 } := by
    rw [scan_search_skip table band k c 0 0 hc (by omega) hmin,
      scan_search_hit table band _ _ _ hadm]
    simp
  simp only [scan_tick, hs, List.getElem?_eq_getElem hidx,
    hz_at_of_get (List.getElem?_eq_getElem hidx)]

theorem admissible_ref_0 : admissible g_scan_freqs 0 = [0, 1, 2, 3, 4, 5, 6, 7, 8, 9, 10] := by
  simp only [admissible, admitted, freq_allowed_eq_hz]
  decide

theorem admissible_ref_1 : admissible g_scan_freqs 1 = [6, 7] := by
  simp only [admissible, admitted, freq_allowed_eq_hz]
  decide

theorem admissible_ref_2 : admissible g_scan_freqs 2 = [8] := by
  simp only [admissible, admitted, freq_allowed_eq_hz]
  decide

theorem admissible_ref_3 : admissible g_scan_freqs 3 = [9] := by
  simp only [admissible, admitted, freq_allowed_eq_hz]
  decide

theorem admissible_ref_4 : admissible g_scan_freqs 4 = [10] := by
  simp only [admissible, admitted, freq_allowed_eq_hz]
  decide

/-- One tick read off the list of admitted indices: `k` advances reach the
admitted index `v`, none of the indices passed on the way is admitted. -/
theorem scan_tick_of_adm (table : List ScanFreq) (band : Int) (adm : List Nat)
    (hadm : admissible table band = adm) (N c k v c' : Nat) (hN : table.length = N)
    (hc : c < N) (hk : k ≤ N) (hv : (c + k) % N = v) (hc' : (v + 1) % N = c')
    (hmem : v ∈ adm) (hmin : ∀ j < k, (c + j) % N ∉ adm) :
    scan_tick table band c =
      some { set_freq_arg := hz_at table v, current_freq_hz := hz_at table v,
             idx := c', checks := k + 1 } := by
  subst hN hv hc' hadm
  apply scan_tick_of_least table band c k hc hk ((mem_admissible _ _ _).mp hmem)
  intro j hj
  have := hmin j hj
  rw [mem_admissible] at this
  simpa using this

theorem ref_tick_step (band : Int) (L : List Nat) (hadm : admissible g_scan_freqs band = L)
    (hdec : ∀ c < 11, adm_step_ok L c) (c : Nat) (hc : c < 11) :
    scan_tick g_scan_freqs band c =
      some { set_freq_arg := hz_at g_scan_freqs (visit g_scan_freqs band c 0)
             current_freq_hz := hz_at g_scan_freqs (visit g_scan_freqs band c 0)
             idx := (visit g_scan_freqs band c 0 + 1) % 11
             checks := (visit g_scan_freqs band c 0 + 11 - c) % 11 + 1 } ∧
    ∀ t, visit g_scan_freqs band ((visit g_scan_freqs band c 0 + 1) % 11) t
      = visit g_scan_freqs band c (t + 1) := by
  obtain ⟨h1, h2, h3, h4⟩ := hdec c hc
  have hv0 : visit g_scan_freqs band c 0
      = L.getD ((L.filter (fun a => decide (a < c))).length % L.length) 0 := by
    simp only [visit, rank_below, hadm, Nat.add_zero]
  constructor
  · rw [hv0]
    exact scan_tick_of_adm g_scan_freqs band L hadm 11 c _ _ _ rfl hc
      (le_of_lt (Nat.mod_lt _ (by norm_num))) h1 rfl h2 h3
  · intro t
    rw [hv0]
    simp only [visit, rank_below, hadm]
    congr 1
    generalize (L.filter (fun a => decide
      (a < (L.getD ((L.filter (fun a => decide (a < c))).length % L.length) 0 + 1) % 11))).length
      = r' at h4 ⊢
    generalize (L.filter (fun a => decide (a < c))).length = r at h4 ⊢
    calc (r' + t) % L.length = (r' % L.length + t) % L.length := (Nat.mod_add_mod _ _ _).symm
      _ = ((r + 1) % L.length + t) % L.length := by rw [h4]
      _ = (r + 1 + t) % L.length := Nat.mod_add_mod _ _ _
      _ = (r + (t + 1)) % L.length := by rw [Nat.add_assoc, Nat.add_comm 1 t]

theorem adm_step_ok_0 : ∀ c < 11, adm_step_ok [0, 1, 2, 3, 4, 5, 6, 7, 8, 9, 10] c := by
  decide

theorem adm_step_ok_1 : ∀ c < 11, adm_step_ok [6, 7] c := by decide

theorem adm_step_ok_2 : ∀ c < 11, adm_step_ok [8] c := by decide

theorem adm_step_ok_3 : ∀ c < 11, adm_step_ok [9] c := by decide

theorem adm_step_ok_4 : ∀ c < 11, adm_step_ok [10] c := by decide

/-- The least number of advances from `c` that reaches an admitted entry. -/
theorem exists_least_admitted (table : List ScanFreq) (band : Int) (c : Nat)
    (hc : c < table.length) (hex : ∃ i, admitted table band i = true) :
    ∃ k, k < table.length ∧ admitted table band ((c + k) % table.length) = true ∧
      ∀ j < k, admitted table band ((c + j) % table.length) = false := by
  obtain ⟨i, hi⟩ := hex
  have hiN : i < table.length := admitted_lt_length hi
  have hreach : admitted table band
      ((c + (i + table.length - c) % table.length) % table.length) = true := by
    have : (c + (i + table.length - c) % table.length) % table.length = i := by
      rw [Nat.add_mod_mod]
      have : c + (i + table.length - c) = i + table.length := by omega
      rw [this, Nat.add_mod_right]
      exact Nat.mod_eq_of_lt hiN
    rw [this]; exact hi
  have hP : ∃ k, admitted table band ((c + k) % table.length) = true := ⟨_, hreach⟩
  refine ⟨Nat.find hP, ?_, Nat.find_spec hP, ?_⟩
  · exact lt_of_le_of_lt (Nat.find_min' hP hreach) (Nat.mod_lt _ (by omega))
  · intro j hj
    simpa using Nat.find_min hP hj

theorem hz_at_mem (table : List ScanFreq) (i : Nat) (hi : i < table.length) :
    ∃ e ∈ table, hz_at table i = e.hz :=
  ⟨table[i], List.getElem_mem _, hz_at_of_get (List.getElem?_eq_getElem hi)⟩

theorem freq_allowed_hz_at (table : List ScanFreq) (band : Int) (i : Nat)
    (h : admitted table band i = true) : freq_allowed (hz_at table i) band = true := by
  have hi := admitted_lt_length h
  have he : table[i]? = some table[i] := List.getElem?_eq_getElem hi
  rw [hz_at_of_get he, ← admitted_eq_of_get he]; exact h

/-- Every tick from a cursor inside the table succeeds: it tunes to some table
entry `i`, leaves the cursor at `(i + 1) % N`, and when the band admits an
entry at all, entry `i` is admitted and the guard was not exhausted. -/
theorem scan_tick_some (table : List ScanFreq) (band : Int) (c : Nat)
    (hc : c < table.length) :
    ∃ r i, scan_tick table band c = some r ∧ i < table.length ∧
      r.idx = (i + 1) % table.length ∧ r.current_freq_hz = hz_at table i ∧
      r.set_freq_arg = hz_at table i ∧
      ((∃ j, admitted table band j = true) →
        admitted table band i = true ∧ r.checks ≤ table.length) := by
  by_cases hex : ∃ j, admitted table band j = true
  · obtain ⟨k, hk, hadm, hmin⟩ := exists_least_admitted table band c hc hex
    exact ⟨_, (c + k) % table.length,
      scan_tick_of_least table band c k hc (le_of_lt hk) hadm hmin,
      admitted_lt_length hadm, rfl, rfl, rfl, fun _ => ⟨hadm, hk⟩⟩
  · have hnone : ∀ i, admitted table band i = false := by
      intro i
      cases h : admitted table band i with
      | false => rfl
      | true => exact absurd ⟨i, h⟩ hex
    have hs := scan_search_none_admitted table band c hc hnone
    have he : table[c]? = some table[c] := List.getElem?_eq_getElem hc
    have ht : scan_tick table band c =
        some { set_freq_arg := hz_at table c, current_freq_hz := hz_at table c,
               idx := (c + 1) % table.length, checks := table.length + 1 } := by
      simp only [scan_tick, hs, he, hz_at_of_get he]
    exact ⟨_, c, ht, hc, rfl, rfl, rfl, fun h => absurd h hex⟩

/-- Any number of ticks under any band modes, from a cursor inside the table:
every tick succeeds, the cursor stays inside the table and every frequency
stored is the `hz` of a table entry. -/
theorem scan_run_some (table : List ScanFreq) (bands : List Int) :
    ∀ c, c < table.length →
      ∃ freqs idx, scan_run table bands c = some (freqs, idx) ∧ idx < table.length ∧
        freqs.length = bands.length ∧ ∀ f ∈ freqs, ∃ e ∈ table, f = e.hz := by
  induction bands with
  | nil =>
    intro c hc
    exact ⟨[], c, rfl, hc, rfl, fun f hf => by simp at hf⟩
  | cons band rest ih =>
    intro c hc
    obtain ⟨r, i, hr, hi, hidx, hcur, _, _⟩ := scan_tick_some table band c hc
    have hlt : r.idx < table.length := by
      rw [hidx]; exact Nat.mod_lt _ (by omega)
    obtain ⟨freqs, idx, hrun, hidx', hlen, hall⟩ := ih r.idx hlt
    refine ⟨r.current_freq_hz :: freqs, idx, ?_, hidx', by simp [hlen], ?_⟩
    · simp only [scan_run, hr, hrun]
    · intro f hf
      rcases List.mem_cons.mp hf with h | h
      · rw [h, hcur]; exact hz_at_mem table i hi
      · exact hall f h

theorem admitted_ref_exists (band : Int) (h0 : 0 ≤ band) (h4 : band ≤ 4) :
    ∃ i, i < 11 ∧ admitted g_scan_freqs band i = true := by
  have hb : band = 0 ∨ band = 1 ∨ band = 2 ∨ band = 3 ∨ band = 4 := by omega
  rcases hb with h | h | h | h | h <;> subst h
  · exact ⟨0, by decide, (mem_admissible _ _ _).mp (by rw [admissible_ref_0]; decide)⟩
  · exact ⟨6, by decide, (mem_admissible _ _ _).mp (by rw [admissible_ref_1]; decide)⟩
  · exact ⟨8, by decide, (mem_admissible _ _ _).mp (by rw [admissible_ref_2]; decide)⟩
  · exact ⟨9, by decide, (mem_admissible _ _ _).mp (by rw [admissible_ref_3]; decide)⟩
  · exact ⟨10, by decide, (mem_admissible _ _ _).mp (by rw [admissible_ref_4]; decide)⟩

/-- C19: on the reference table every band mode in 0..4 admits an entry;
`nativeSetBandMode` stores only values in 0..4; and for every cursor `c < 11`
and every band mode in 0..4 the tick succeeds, the frequency it passes to
`hackrf_set_freq` and stores is admitted by `freq_allowed` under that mode, and
the search ends on an admitted entry within 11 filter evaluations (the guard
is not exhausted). -/
theorem tick_tunes_admitted :
    (∀ band : Int, 0 ≤ band → band ≤ 4 →
      ∃ i, i < 11 ∧ admitted g_scan_freqs band i = true) ∧
    (∀ (g : Globals) (mode : Int),
      0 ≤ (nativeSetBandMode g mode).band_mode ∧ (nativeSetBandMode g mode).band_mode ≤ 4) ∧
    (∀ (c : Nat) (band : Int), c < 11 → 0 ≤ band → band ≤ 4 →
      ∃ r, scan_tick g_scan_freqs band c = some r ∧
        freq_allowed r.current_freq_hz band = true ∧
        r.set_freq_arg = r.current_freq_hz ∧ r.checks ≤ 11) := by
  refine ⟨admitted_ref_exists, ?_, ?_⟩
  · intro g mode
    simp only [nativeSetBandMode]
    split_ifs <;> omega
  · intro c band hc h0 h4
    obtain ⟨r, i, hr, _, _, hcur, hset, hadm⟩ := scan_tick_some g_scan_freqs band c hc
    obtain ⟨j, _, hj⟩ := admitted_ref_exists band h0 h4
    obtain ⟨hi, hchk⟩ := hadm ⟨j, hj⟩
    refine ⟨r, hr, ?_, by rw [hset, hcur], hchk⟩
    rw [hcur]; exact freq_allowed_hz_at _ _ _ hi

/-- Witness for C19: band mode 7 is stored as 4, and the tick from cursor 9
under band 2. -/
theorem tick_tunes_admitted_witness :
    (nativeSetBandMode g_init 7).band_mode = 4 ∧
    (∃ i, i < 11 ∧ admitted g_scan_freqs 2 i = true) ∧
    ∃ r, scan_tick g_scan_freqs 2 9 = some r ∧
      freq_allowed r.current_freq_hz 2 = true ∧
      r.set_freq_arg = r.current_freq_hz ∧ r.checks ≤ 11 :=
  ⟨by decide, tick_tunes_admitted.1 2 (by decide) (by decide),
    tick_tunes_admitted.2.2 9 2 (by decide) (by decide) (by decide)⟩

/-- C20: the initial value of `g_current_freq_hz` and the value written by
`nativeStartScan` are table frequencies, `rx_callback` and `nativeStopScan` do
not write it, and from cursor 0, after any number of ticks under any sequence
of band modes, every tick has indexed the table in bounds (the run has a
result), the cursor is below `FREQ_COUNT`, and every value stored in
`g_current_freq_hz` is the `hz` of a table entry. -/
theorem cursor_in_bounds :
    (∃ e ∈ g_scan_freqs, g_init.current_freq_hz = e.hz) ∧
    (∀ (drv : Driver) (b : Backend),
      (∃ e ∈ g_scan_freqs, b.globals.current_freq_hz = e.hz) →
      ∃ e ∈ g_scan_freqs, (nativeStartScan drv b).2.globals.current_freq_hz = e.hz) ∧
    (∀ (g : Globals) (t : hackrf_transfer),
      (rx_callback g t).2.current_freq_hz = g.current_freq_hz) ∧
    (∀ b : Backend, (nativeStopScan b).globals.current_freq_hz = b.globals.current_freq_hz) ∧
    (∀ bands : List Int,
      ∃ freqs idx, scan_run g_scan_freqs bands 0 = some (freqs, idx) ∧ idx < FREQ_COUNT ∧
        freqs.length = bands.length ∧ ∀ f ∈ freqs, ∃ e ∈ g_scan_freqs, f = e.hz) := by
  have h0 : ∃ e ∈ g_scan_freqs, hz_at g_scan_freqs 0 = e.hz :=
    hz_at_mem g_scan_freqs 0 (by decide)
  refine ⟨h0, ?_, ?_, fun b => rfl, ?_⟩
  · intro drv b hb
    unfold nativeStartScan
    split_ifs
    · exact hb
    · exact hb
    · exact hb
    · exact h0
    · exact h0
  · intro g t
    unfold rx_callback
    split_ifs
    · rfl
    · rfl
    · exact rx_track_current_freq g _
  · intro bands
    exact scan_run_some g_scan_freqs bands 0 (by decide)

/-- Witness for C20: the start of a scan from the initial state, and three
ticks under the band modes 4, 1, 0. -/
theorem cursor_in_bounds_witness :
    (∃ e ∈ g_scan_freqs, (nativeStartScan driver_ok b_init).2.globals.current_freq_hz = e.hz) ∧
    ∃ freqs idx, scan_run g_scan_freqs [4, 1, 0] 0 = some (freqs, idx) ∧ idx < FREQ_COUNT ∧
      freqs.length = [(4 : Int), 1, 0].length ∧ ∀ f ∈ freqs, ∃ e ∈ g_scan_freqs, f = e.hz :=
  ⟨cursor_in_bounds.2.1 driver_ok b_init cursor_in_bounds.1, cursor_in_bounds.2.2.2.2 [4, 1, 0]⟩

/-- The step lemma for each band mode in 0..4 on the reference table. -/
theorem ref_tick_visit (band : Int) (h0 : 0 ≤ band) (h4 : band ≤ 4) (c : Nat) (hc : c < 11) :
    scan_tick g_scan_freqs band c =
      some { set_freq_arg := hz_at g_scan_freqs (visit g_scan_freqs band c 0)
             current_freq_hz := hz_at g_scan_freqs (visit g_scan_freqs band c 0)
             idx := (visit g_scan_freqs band c 0 + 1) % 11
             checks := (visit g_scan_freqs band c 0 + 11 - c) % 11 + 1 } ∧
    ∀ t, visit g_scan_freqs band ((visit g_scan_freqs band c 0 + 1) % 11) t
      = visit g_scan_freqs band c (t + 1) := by
  have hb : band = 0 ∨ band = 1 ∨ band = 2 ∨ band = 3 ∨ band = 4 := by omega
  rcases hb with h | h | h | h | h <;> subst h
  · exact ref_tick_step 0 _ admissible_ref_0 adm_step_ok_0 c hc
  · exact ref_tick_step 1 _ admissible_ref_1 adm_step_ok_1 c hc
  · exact ref_tick_step 2 _ admissible_ref_2 adm_step_ok_2 c hc
  · exact ref_tick_step 3 _ admissible_ref_3 adm_step_ok_3 c hc
  · exact ref_tick_step 4 _ admissible_ref_4 adm_step_ok_4 c hc

/-- Ticks under a fixed band mode in 0..4 on the reference table tune to the
entries named by `visit`, one after the other. -/
theorem scan_run_visit (band : Int) (h0 : 0 ≤ band) (h4 : band ≤ 4) (n : Nat) :
    ∀ c, c < 11 →
      ∃ idx, idx < 11 ∧
        scan_run g_scan_freqs (List.replicate n band) c =
          some ((List.range n).map (fun t => hz_at g_scan_freqs (visit g_scan_freqs band c t)),
                idx) := by
  induction n with
  | zero =>
    intro c hc
    exact ⟨c, hc, rfl⟩
  | succ n ih =>
    intro c hc
    obtain ⟨htick, hshift⟩ := ref_tick_visit band h0 h4 c hc
    obtain ⟨idx, hidx, hrun⟩ :=
      ih ((visit g_scan_freqs band c 0 + 1) % 11) (Nat.mod_lt _ (by norm_num))
    refine ⟨idx, hidx, ?_⟩
    rw [List.replicate_succ]
    simp only [scan_run, htick, hrun]
    rw [List.range_succ_eq_map, List.map_cons, List.map_map]
    congr 2
    congr 1
    apply List.map_congr_left
    intro t _
    simp only [Function.comp, hshift t]

theorem admissible_pairwise (table : List ScanFreq) (band : Int) :
    (admissible table band).Pairwise (fun a b => a < b) :=
  List.Pairwise.filter _ (List.pairwise_lt_range _)

theorem visit_mem (table : List ScanFreq) (band : Int) (c t : Nat)
    (hm : 1 ≤ (admissible table band).length) :
    visit table band c t ∈ admissible table band := by
  unfold visit
  have hlt : (rank_below table band c + t) % (admissible table band).length
      < (admissible table band).length := Nat.mod_lt _ hm
  rw [List.getD_eq_getElem _ _ hlt]
  exact List.getElem_mem _

theorem visit_period (table : List ScanFreq) (band : Int) (c t : Nat) :
    visit table band c (t + (admissible table band).length) = visit table band c t := by
  unfold visit
  rw [← Nat.add_assoc, Nat.add_mod_right]

/-- Within one period no admitted index is visited twice. -/
theorem visit_injective (table : List ScanFreq) (band : Int) (c t u : Nat)
    (htu : t < u) (hu : u < t + (admissible table band).length) :
    visit table band c t ≠ visit table band c u := by
  have hm : 0 < (admissible table band).length := by omega
  have hnd : (admissible table band).Nodup :=
    (admissible_pairwise table band).imp (fun h => ne_of_lt h)
  unfold visit
  rw [List.getD_eq_getElem _ _ (Nat.mod_lt _ hm), List.getD_eq_getElem _ _ (Nat.mod_lt _ hm)]
  intro h
  have hidx := (hnd.getElem_inj_iff).mp h
  have hmod : t ≡ u [MOD (admissible table band).length] :=
    Nat.ModEq.add_left_cancel' (rank_below table band c) hidx
  have hdvd := (Nat.modEq_iff_dvd' (le_of_lt htu)).mp hmod
  have := Nat.le_of_dvd (by omega) hdvd
  omega

/-- In Auto mode the tick from cursor `c` tunes to entry `c` itself. -/
theorem scan_tick_auto (c : Nat) (hc : c < 11) :
    scan_tick g_scan_freqs 0 c =
      some { set_freq_arg := hz_at g_scan_freqs c, current_freq_hz := hz_at g_scan_freqs c,
             idx := (c + 1) % 11, checks := 1 } := by
  have hc' : c < g_scan_freqs.length := hc
  have hadm : admitted g_scan_freqs 0 ((c + 0) % g_scan_freqs.length) = true := by
    rw [Nat.add_zero, Nat.mod_eq_of_lt hc']
    have he : g_scan_freqs[c]? = some g_scan_freqs[c] := List.getElem?_eq_getElem hc'
    rw [admitted_eq_of_get he]
    simp [freq_allowed]
  have h := scan_tick_of_least g_scan_freqs 0 c 0 hc' (Nat.zero_le _) hadm
    (fun j hj => absurd hj (Nat.not_lt_zero j))
  rw [h]
  have e1 : (c + 0) % g_scan_freqs.length = c := by
    rw [Nat.add_zero]; exact Nat.mod_eq_of_lt hc'
  rw [e1]
  rfl

/-- In Auto mode 11 ticks from cursor 0 tune to the 11 table entries in order. -/
theorem scan_run_auto :
    scan_run g_scan_freqs (List.replicate 11 0) 0 = some (g_scan_freqs.map (fun e => e.hz), 0) := by
  simp only [List.replicate, scan_run, scan_tick_auto 0 (by decide), scan_tick_auto 1 (by decide),
    scan_tick_auto 2 (by decide), scan_tick_auto 3 (by decide), scan_tick_auto 4 (by decide),
    scan_tick_auto 5 (by decide), scan_tick_auto 6 (by decide), scan_tick_auto 7 (by decide),
    scan_tick_auto 8 (by decide), scan_tick_auto 9 (by decide), scan_tick_auto 10 (by decide),
    Nat.reduceAdd, Nat.reduceMod]
  rfl

/-- C16: on the reference table, for a fixed band mode in 0..4 and any starting
cursor `c < 11`, there are `m ≥ 1` admitted indices `a_0 < ... < a_(m-1)`, and
`n` consecutive ticks tune, in this order, to the admitted entries read
circularly in table order beginning with the first one at or after `c` (tick
`t` tunes to index `visit c t`); every visited index is admitted, the visits
have period `m`, and within one period no index is visited twice.  In Auto mode
11 ticks from cursor 0 tune each table entry once, in table order. -/
theorem circular_hopping (band : Int) (c n : Nat) (h0 : 0 ≤ band) (h4 : band ≤ 4)
    (hc : c < 11) :
    1 ≤ (admissible g_scan_freqs band).length ∧
    (admissible g_scan_freqs band).Pairwise (fun a b => a < b) ∧
    (∀ i, i ∈ admissible g_scan_freqs band ↔ admitted g_scan_freqs band i = true) ∧
    (∃ idx, idx < 11 ∧
      scan_run g_scan_freqs (List.replicate n band) c =
        some ((List.range n).map (fun t => hz_at g_scan_freqs (visit g_scan_freqs band c t)),
              idx)) ∧
    (∀ t, visit g_scan_freqs band c t ∈ admissible g_scan_freqs band) ∧
    (∀ t, visit g_scan_freqs band c (t + (admissible g_scan_freqs band).length)
      = visit g_scan_freqs band c t) ∧
    (∀ t u, t < u → u < t + (admissible g_scan_freqs band).length →
      visit g_scan_freqs band c t ≠ visit g_scan_freqs band c u) ∧
    scan_run g_scan_freqs (List.replicate 11 0) 0
      = some (g_scan_freqs.map (fun e => e.hz), 0) := by
  have hm : 1 ≤ (admissible g_scan_freqs band).length := by
    obtain ⟨i, _, hi⟩ := admitted_ref_exists band h0 h4
    exact List.length_pos_of_mem ((mem_admissible _ _ _).mpr hi)
  refine ⟨hm, admissible_pairwise _ _, mem_admissible _ _, scan_run_visit band h0 h4 n c hc,
    fun t => visit_mem _ _ _ _ hm, visit_period _ _ _, visit_injective _ _ _, ?_⟩
  exact scan_run_auto

/-- Witness for C16: band 1 (admitted indices 6 and 7), cursor 8, five ticks:
1200, 1350, 1200, 1350, 1200 MHz. -/
theorem circular_hopping_witness :
    (0 : Int) ≤ 1 ∧ (1 : Int) ≤ 4 ∧ 8 < 11 ∧
    admissible g_scan_freqs 1 = [6, 7] ∧
    ∃ idx, idx < 11 ∧
      scan_run g_scan_freqs (List.replicate 5 1) 8 =
        some ((List.range 5).map (fun t => hz_at g_scan_freqs (visit g_scan_freqs 1 8 t)),
              idx) :=
  ⟨by decide, by decide, by decide, admissible_ref_1,
    (circular_hopping 1 8 5 (by decide) (by decide) (by decide)).2.2.2.1⟩

/-! ## Zero-power first buffer -/

/-- In a tracking state with noise EMA 0 and threshold `≥ 0`, `rx_callback`
keeps the noise EMA at 0 and does not touch `g_last_detection`. -/
theorem rx_callback_zero_noise (g : Globals) (t : hackrf_transfer)
    (hinit : g.init_noise = true) (hn : g.noise_ema = 0) (hthr : 0 ≤ g.detect_ratio) :
    (rx_callback g t).2.init_noise = true ∧ (rx_callback g t).2.noise_ema = 0 ∧
    (rx_callback g t).2.detect_ratio = g.detect_ratio ∧
    (rx_callback g t).2.last_detection = g.last_detection := by
  unfold rx_callback
  split_ifs
  · exact ⟨hinit, hn, rfl, rfl⟩
  · exact ⟨hinit, hn, rfl, rfl⟩
  · have h := rx_track_zero_noise g (avg_power t) hinit hn hthr (avg_power_nonneg t)
    exact ⟨rx_track_init_noise _ _, h.1, rx_track_detect_ratio _ _,
      rx_track_last_of_not_fires _ _ h.2.2⟩

theorem rx_callback_run_zero_noise (ts : List hackrf_transfer) :
    ∀ g : Globals, g.init_noise = true → g.noise_ema = 0 → 0 ≤ g.detect_ratio →
      (rx_callback_run g ts).noise_ema = 0 ∧
      (rx_callback_run g ts).last_detection = g.last_detection := by
  induction ts with
  | nil => intro g _ hn _; exact ⟨hn, rfl⟩
  | cons t ts ih =>
    intro g hinit hn hthr
    obtain ⟨h1, h2, h3, h4⟩ := rx_callback_zero_noise g t hinit hn hthr
    have := ih (rx_callback g t).2 h1 h2 (by rw [h3]; exact hthr)
    simp only [rx_callback_run, List.foldl_cons] at this ⊢
    rw [this.1, this.2, h4]
    exact ⟨rfl, rfl⟩

/-- C17: when the first power sample processed is 0 (a buffer of bytes 128) in
the uninitialised state, with a threshold `≥ 0` (2.3 in the program), then on
that buffer and on every later buffer of any sequence of non-negative power
samples the noise EMA is exactly 0, the ratio is 0 and no detection fires.
For buffers: while scanning, after a first buffer of power 0 and any further
buffers whatever, the noise EMA is 0 and `g_last_detection` is as it was. -/
theorem zero_first_sample_never_fires (g : Globals) (hinit : g.init_noise = false)
    (hthr : 0 ≤ g.detect_ratio) :
    ((rx_track g 0).globals.noise_ema = 0 ∧ (rx_track g 0).ratio = 0 ∧ fires g 0 = false) ∧
    (∀ (l : List ℚ) (s : ℚ), (∀ x ∈ l, 0 ≤ x) → 0 ≤ s →
      (rx_run g (0 :: l)).noise_ema = 0 ∧
      (rx_track (rx_run g (0 :: l)) s).globals.noise_ema = 0 ∧
      (rx_track (rx_run g (0 :: l)) s).ratio = 0 ∧
      fires (rx_run g (0 :: l)) s = false) ∧
    (∀ t : hackrf_transfer,
      (∀ i, i < 2 * (t.valid_length / 2) → t.buffer.getD i 0 = 128) → avg_power t = 0) ∧
    (∀ (t0 : hackrf_transfer) (ts : List hackrf_transfer), g.scanning = true →
      t0.valid_length / 2 ≠ 0 → avg_power t0 = 0 →
      (rx_callback_run g (t0 :: ts)).noise_ema = 0 ∧
      (rx_callback_run g (t0 :: ts)).last_detection = g.last_detection) := by
  refine ⟨?_, ?_, avg_power_all_128, ?_⟩
  · have hr := cold_start_ratio_aux g 0 hinit
    rw [if_neg (by norm_num)] at hr
    refine ⟨(cold_start_seeds_aux g 0 hinit).2.1, hr, ?_⟩
    rw [← Bool.not_eq_true, fires_iff, hr]
    exact not_lt.mpr hthr
  · intro l s hl hs
    obtain ⟨h1, h2⟩ := rx_run_zero_first g hinit l hl
    have h3 : 0 ≤ (rx_run g (0 :: l)).detect_ratio := by
      rw [rx_run_detect_ratio]; exact hthr
    exact ⟨h2, rx_track_zero_noise _ s h1 h2 h3 hs⟩
  · intro t0 ts hscan hcount hzero
    have hfirst : (rx_callback g t0).2 = (rx_track g 0).globals := by
      rw [rx_callback_scanning g t0 hscan hcount, hzero]
    have hr := cold_start_ratio_aux g 0 hinit
    rw [if_neg (by norm_num)] at hr
    have hnf : fires g 0 = false := by
      rw [← Bool.not_eq_true, fires_iff, hr]
      exact not_lt.mpr hthr
    have hs := cold_start_seeds_aux g 0 hinit
    have := rx_callback_run_zero_noise ts (rx_track g 0).globals hs.1 hs.2.1
      (by rw [hs.2.2.2]; exact hthr)
    simp only [rx_callback_run, List.foldl_cons, hfirst] at this ⊢
    rw [this.1, this.2, rx_track_last_of_not_fires g 0 hnf]
    exact ⟨rfl, rfl⟩

/-- Witness for C17: the initial globals; the buffers after the zero one have
powers 5000 and 32768, and the next one 20000. -/
theorem zero_first_sample_never_fires_witness :
    g_init.init_noise = false ∧ 0 ≤ g_init.detect_ratio ∧
    avg_power { buffer := [128, 128], valid_length := 2 } = 0 ∧
    (rx_run g_init [0, 5000, 32768]).noise_ema = 0 ∧
    (rx_track (rx_run g_init [0, 5000, 32768]) 20000).ratio = 0 ∧
    fires (rx_run g_init [0, 5000, 32768]) 20000 = false := by
  have h := zero_first_sample_never_fires g_init rfl (by norm_num [g_init])
  have h2 := h.2.1 [5000, 32768] 20000
    (by intro x hx; simp at hx; rcases hx with h | h <;> rw [h] <;> norm_num) (by norm_num)
  refine ⟨rfl, by norm_num [g_init], ?_, h2.1, h2.2.2.1, h2.2.2.2⟩
  apply h.2.2.1
  intro i hi
  have : i < 2 := by simpa using hi
  interval_cases i <;> rfl

/-! ## The tracker in rounded (`double`) arithmetic -/

theorem rx_track_r_noise (fl : ℚ → ℚ) (g : Globals) (s : ℚ) :
    (rx_track_r fl g s).globals.noise_ema = (ema_locals_r fl g s).1 := by
  unfold rx_track_r; dsimp only; split_ifs <;> rfl

theorem rx_track_r_power (fl : ℚ → ℚ) (g : Globals) (s : ℚ) :
    (rx_track_r fl g s).globals.power_ema = (ema_locals_r fl g s).2 := by
  unfold rx_track_r; dsimp only; split_ifs <;> rfl

theorem rx_track_r_init_noise (fl : ℚ → ℚ) (g : Globals) (s : ℚ) :
    (rx_track_r fl g s).globals.init_noise = true := by
  unfold rx_track_r; dsimp only; split_ifs <;> rfl

theorem rx_track_r_detect_ratio (fl : ℚ → ℚ) (g : Globals) (s : ℚ) :
    (rx_track_r fl g s).globals.detect_ratio = g.detect_ratio := by
  unfold rx_track_r; dsimp only; split_ifs <;> rfl

theorem rx_track_r_ratio (fl : ℚ → ℚ) (g : Globals) (s : ℚ) :
    (rx_track_r fl g s).ratio =
      if (ema_locals_r fl g s).1 > fl (1 / 1000000000) then
        fl ((ema_locals_r fl g s).2 / (ema_locals_r fl g s).1)
      else 0 := by
  unfold rx_track_r; dsimp only; split_ifs <;> rfl

theorem fires_r_iff (fl : ℚ → ℚ) (g : Globals) (s : ℚ) :
    fires_r fl g s = true ↔ (rx_track_r fl g s).ratio > g.detect_ratio := by
  rw [rx_track_r_ratio]
  unfold fires_r rx_track_r; dsimp only
  split_ifs <;> simp_all

theorem rx_run_r_snoc (fl : ℚ → ℚ) (g : Globals) (l : List ℚ) (s : ℚ) :
    rx_run_r fl g (l ++ [s]) = (rx_track_r fl (rx_run_r fl g l) s).globals := by
  simp [rx_run_r, List.foldl_append]

theorem rx_run_r_replicate_succ (fl : ℚ → ℚ) (g : Globals) (n : Nat) (s : ℚ) :
    rx_run_r fl g (List.replicate (n + 1) s)
      = (rx_track_r fl (rx_run_r fl g (List.replicate n s)) s).globals := by
  rw [List.replicate_succ', rx_run_r_snoc]

theorem ema_locals_r_tracking (fl : ℚ → ℚ) (g : Globals) (s : ℚ) (h : g.init_noise = true) :
    ema_locals_r fl g s =
      (if s < fl (g.noise_ema * g.detect_ratio) then
         ema_update_r fl g.noise_ema s (fl (1 / 20))
       else g.noise_ema,
       ema_update_r fl g.power_ema s (fl (1 / 20))) := by
  simp [ema_locals_r, h]

/-- A buffer that fires no detection leaves `g_last_detection` as it was. -/
theorem rx_track_r_last_of_not_fires (fl : ℚ → ℚ) (g : Globals) (s : ℚ)
    (h : fires_r fl g s = false) :
    (rx_track_r fl g s).globals.last_detection = g.last_detection := by
  unfold fires_r rx_track_r at h
  unfold rx_track_r
  dsimp only at h ⊢
  split_ifs at h ⊢ <;> simp_all

/-- A buffer that fires stores the message it publishes, built from the tuned
frequency and the two EMAs just stored. -/
theorem rx_track_r_last_of_fires (fl : ℚ → ℚ) (g : Globals) (s : ℚ)
    (h : fires_r fl g s = true) :
    (rx_track_r fl g s).globals.last_detection = (rx_track_r fl g s).published ∧
    (rx_track_r fl g s).published =
      some (Message.detection (fl (fl (g.current_freq_hz : ℚ) / 1000000))
        (c_int (rx_track_r fl g s).globals.power_ema)
        (c_int (rx_track_r fl g s).globals.noise_ema)
        (rx_track_r fl g s).ratio) := by
  unfold fires_r rx_track_r at h
  unfold rx_track_r
  dsimp only at h ⊢
  split_ifs at h ⊢ <;> simp_all

/-- With the identity as rounding the rounded tracker is the exact one. -/
theorem rx_track_r_id (g : Globals) (s : ℚ) : rx_track_r id g s = rx_track g s := by
  simp [rx_track_r, rx_track, ema_locals_r, ema_locals, ema_update_r, ema_update]

/-- During a step to `10 * P` the gate stays closed in rounded arithmetic: the
rounding is monotone and `10 * P` is representable, so the rounded product
`P * threshold` cannot exceed the sample. -/
theorem rx_run_r_step_noise (fl : ℚ → ℚ) (hmono : Monotone fl) (g : Globals) (P : ℚ)
    (hinit : g.init_noise = true) (hn : g.noise_ema = P) (hthr : g.detect_ratio ≤ 10)
    (hP : 0 < P) (hrep : fl (10 * P) = 10 * P) (k : Nat) :
    (rx_run_r fl g (List.replicate k (10 * P))).init_noise = true ∧
    (rx_run_r fl g (List.replicate k (10 * P))).noise_ema = P ∧
    (rx_run_r fl g (List.replicate k (10 * P))).detect_ratio = g.detect_ratio := by
  induction k with
  | zero => exact ⟨hinit, hn, rfl⟩
  | succ k ih =>
    obtain ⟨h1, h2, h3⟩ := ih
    rw [rx_run_r_replicate_succ]
    refine ⟨rx_track_r_init_noise _ _ _, ?_, by rw [rx_track_r_detect_ratio, h3]⟩
    rw [rx_track_r_noise, ema_locals_r_tracking fl _ _ h1, h2, h3]
    dsimp only
    have hle : fl (P * g.detect_ratio) ≤ 10 * P := by
      rw [← hrep]
      apply hmono
      nlinarith
    rw [if_neg (not_lt.mpr hle)]

/-! ## Binary64 rounding is monotone -/

theorem log2_fuel_eq (fuel n : Nat) (h : n ≤ fuel) : log2_fuel fuel n = Nat.log2 n := by
  induction fuel generalizing n with
  | zero =>
    have : n = 0 := by omega
    subst this
    simp [log2_fuel]
  | succ k ih =>
    rw [Nat.log2]
    simp only [log2_fuel]
    by_cases h2 : n < 2
    · simp [h2, not_le.mpr h2]
    · have h2' : n ≥ 2 := by omega
      simp only [h2, h2', if_true, if_false]
      rw [ih (n / 2) (by omega)]

theorem log2_bracket (n d : Nat) (hn0 : n ≠ 0) (hd0 : d ≠ 0) :
    (2 : ℚ) ^ ((n.log2 : ℤ) - (d.log2 : ℤ) - 1) < (n : ℚ) / (d : ℚ) ∧
    (n : ℚ) / (d : ℚ) < (2 : ℚ) ^ ((n.log2 : ℤ) - (d.log2 : ℤ) + 1) := by
  have hnl := Nat.log2_self_le hn0
  have hnu := @Nat.lt_log2_self n
  have hdl := Nat.log2_self_le hd0
  have hdu := @Nat.lt_log2_self d
  have hdpos : (0 : ℚ) < (d : ℚ) := by exact_mod_cast Nat.pos_of_ne_zero hd0
  constructor
  · rw [lt_div_iff₀ hdpos]
    have e1 : (2 : ℚ) ^ ((n.log2 : ℤ) - (d.log2 : ℤ) - 1)
        = (2 : ℚ) ^ n.log2 / (2 : ℚ) ^ (d.log2 + 1) := by
      rw [show ((n.log2 : ℤ) - (d.log2 : ℤ) - 1)
          = (n.log2 : ℤ) - ((d.log2 + 1 : ℕ) : ℤ) by push_cast; ring]
      rw [zpow_sub₀ (by norm_num), zpow_natCast, zpow_natCast]
    rw [e1, div_mul_eq_mul_div, div_lt_iff₀ (by positivity)]
    have hA : ((2 : ℚ) ^ n.log2) ≤ (n : ℚ) := by exact_mod_cast hnl
    have hB : ((d : ℚ)) < (2 : ℚ) ^ (d.log2 + 1) := by exact_mod_cast hdu
    have hApos : (0 : ℚ) < (2 : ℚ) ^ n.log2 := by positivity
    nlinarith
  · rw [div_lt_iff₀ hdpos]
    have e1 : (2 : ℚ) ^ ((n.log2 : ℤ) - (d.log2 : ℤ) + 1)
        = (2 : ℚ) ^ (n.log2 + 1) / (2 : ℚ) ^ d.log2 := by
      rw [show ((n.log2 : ℤ) - (d.log2 : ℤ) + 1)
          = ((n.log2 + 1 : ℕ) : ℤ) - (d.log2 : ℤ) by push_cast; ring]
      rw [zpow_sub₀ (by norm_num), zpow_natCast, zpow_natCast]
    rw [e1, div_mul_eq_mul_div, lt_div_iff₀ (by positivity)]
    have hA : ((n : ℚ)) < (2 : ℚ) ^ (n.log2 + 1) := by exact_mod_cast hnu
    have hB : ((2 : ℚ) ^ d.log2) ≤ (d : ℚ) := by exact_mod_cast hdl
    have hBpos : (0 : ℚ) < (2 : ℚ) ^ d.log2 := by positivity
    have hnn : (0 : ℚ) ≤ (n : ℚ) := Nat.cast_nonneg _
    nlinarith

/-- The exponent found by `log2_floor` brackets a positive rational. -/
theorem log2_floor_spec (a : ℚ) (ha : 0 < a) :
    (2 : ℚ) ^ (log2_floor a) ≤ a ∧ a < (2 : ℚ) ^ (log2_floor a + 1) := by
  have hnum : 0 < a.num := Rat.num_pos.mpr ha
  have hn0 : a.num.natAbs ≠ 0 := by
    intro h; rw [Int.natAbs_eq_zero] at h; omega
  have hcast : (a.num.natAbs : ℚ) / (a.den : ℚ) = a := by
    have h1 : ((a.num.natAbs : ℕ) : ℚ) = (a.num : ℚ) := by
      rw [Nat.cast_natAbs, abs_of_pos hnum]
    rw [h1]
    exact Rat.num_div_den a
  obtain ⟨hlo, hhi⟩ := log2_bracket a.num.natAbs a.den hn0 a.den_nz
  rw [hcast] at hlo hhi
  unfold log2_floor
  rw [log2_fuel_eq _ _ (le_refl _), log2_fuel_eq _ _ (le_refl _)]
  dsimp only
  split
  · rename_i h
    exact ⟨h, hhi⟩
  · rename_i h
    refine ⟨le_of_lt hlo, ?_⟩
    rw [sub_add_cancel]
    exact not_le.mp h

theorem round_half_even_ge_floor (m : ℚ) : ⌊m⌋ ≤ round_half_even m := by
  unfold round_half_even
  split_ifs <;> omega

theorem round_half_even_le_floor_succ (m : ℚ) : round_half_even m ≤ ⌊m⌋ + 1 := by
  unfold round_half_even
  split_ifs <;> omega

theorem round_half_even_intCast (z : ℤ) : round_half_even (z : ℚ) = z := by
  unfold round_half_even
  rw [Int.floor_intCast]
  simp

/-- Rounding to the nearest integer, ties to even, is monotone. -/
theorem round_half_even_mono {m m' : ℚ} (h : m ≤ m') :
    round_half_even m ≤ round_half_even m' := by
  have hf : ⌊m⌋ ≤ ⌊m'⌋ := Int.floor_mono h
  rcases lt_or_eq_of_le hf with hlt | heq
  · calc round_half_even m ≤ ⌊m⌋ + 1 := round_half_even_le_floor_succ m
      _ ≤ ⌊m'⌋ := hlt
      _ ≤ round_half_even m' := round_half_even_ge_floor m'
  · have hfr : m - ⌊m⌋ ≤ m' - ⌊m'⌋ := by
      rw [← heq]; linarith
    unfold round_half_even
    rw [← heq]
    rw [← heq] at hfr
    split_ifs <;> first | omega | linarith

theorem round_half_even_le_int {m : ℚ} {z : ℤ} (h : m ≤ (z : ℚ)) : round_half_even m ≤ z := by
  have := round_half_even_mono h
  rwa [round_half_even_intCast] at this

theorem int_le_round_half_even {m : ℚ} {z : ℤ} (h : (z : ℚ) ≤ m) : z ≤ round_half_even m := by
  have := round_half_even_mono h
  rwa [round_half_even_intCast] at this

theorem pow2_cast_mul (k : Nat) (e : ℤ) :
    (((2 : ℤ) ^ k : ℤ) : ℚ) * (2 : ℚ) ^ e = (2 : ℚ) ^ (e + (k : ℤ)) := by
  rw [Int.cast_pow, Int.cast_ofNat, ← zpow_natCast (2 : ℚ) k, ← zpow_add₀ (by norm_num),
    add_comm]

/-- The rounding of a positive value: `fl64` for `0 < x`. -/
theorem fl64_of_pos (x : ℚ) (hx : 0 < x) :
    fl64 x = (round_half_even (x / (2 : ℚ) ^ (max (log2_floor x) (-1022) - 52)) : ℚ)
      * (2 : ℚ) ^ (max (log2_floor x) (-1022) - 52) := by
  unfold fl64
  rw [if_neg (ne_of_gt hx), abs_of_pos hx]
  simp only [hx, if_true]

theorem fl64_of_neg (x : ℚ) (hx : x < 0) : fl64 x = -fl64 (-x) := by
  have hnx : 0 < -x := by linarith
  rw [fl64_of_pos (-x) hnx]
  unfold fl64
  rw [if_neg (ne_of_lt hx), abs_of_neg hx]
  simp only [not_lt.mpr (le_of_lt hx), if_false]

theorem fl64_nonneg_of_pos (x : ℚ) (hx : 0 < x) : 0 ≤ fl64 x := by
  rw [fl64_of_pos x hx]
  have hq : (0 : ℚ) < (2 : ℚ) ^ (max (log2_floor x) (-1022) - 52) := zpow_pos (by norm_num) _
  apply mul_nonneg _ (le_of_lt hq)
  have : (0 : ℤ) ≤ round_half_even (x / (2 : ℚ) ^ (max (log2_floor x) (-1022) - 52)) := by
    apply int_le_round_half_even
    simp only [Int.cast_zero]
    exact div_nonneg (le_of_lt hx) (le_of_lt hq)
  exact_mod_cast this

theorem log2_floor_mono {x y : ℚ} (hx : 0 < x) (hxy : x ≤ y) : log2_floor x ≤ log2_floor y := by
  have hy : 0 < y := lt_of_lt_of_le hx hxy
  have h1 := (log2_floor_spec x hx).1
  have h2 := (log2_floor_spec y hy).2
  have : (2 : ℚ) ^ (log2_floor x) < (2 : ℚ) ^ (log2_floor y + 1) :=
    lt_of_le_of_lt (le_trans h1 hxy) h2
  rw [zpow_lt_zpow_iff_right₀ (by norm_num : (1 : ℚ) < 2)] at this
  omega

/-- On positive values `fl64` is monotone. -/
theorem fl64_mono_pos {x y : ℚ} (hx : 0 < x) (hxy : x ≤ y) : fl64 x ≤ fl64 y := by
  have hy : 0 < y := lt_of_lt_of_le hx hxy
  rw [fl64_of_pos x hx, fl64_of_pos y hy]
  have hL := log2_floor_mono hx hxy
  have h2 : (1 : ℚ) < 2 := by norm_num
  have h20 : (2 : ℚ) ≠ 0 := by norm_num
  generalize hex : max (log2_floor x) (-1022) = ex
  generalize hey : max (log2_floor y) (-1022) = ey
  have hle : ex ≤ ey := by rw [← hex, ← hey]; exact max_le_max hL (le_refl _)
  have hqx : (0 : ℚ) < (2 : ℚ) ^ (ex - 52) := zpow_pos (by norm_num) _
  have hqy : (0 : ℚ) < (2 : ℚ) ^ (ey - 52) := zpow_pos (by norm_num) _
  rcases lt_or_eq_of_le hle with hlt | heq
  · -- different binades: the power of two `2 ^ ey` separates the two roundings
    have hLy : log2_floor y = ey := by
      rcases le_total (log2_floor y) (-1022) with h | h
      · rw [max_eq_right h] at hey
        have : -1022 ≤ ex := by rw [← hex]; exact le_max_right _ _
        omega
      · rw [max_eq_left h] at hey; exact hey
    have hxlt : x < (2 : ℚ) ^ (ex + 1) := by
      have h1 := (log2_floor_spec x hx).2
      have : log2_floor x + 1 ≤ ex + 1 := by
        have : log2_floor x ≤ ex := by rw [← hex]; exact le_max_left _ _
        omega
      exact lt_of_lt_of_le h1 (zpow_le_zpow_right₀ (le_of_lt h2) this)
    have hyge : (2 : ℚ) ^ ey ≤ y := by
      rw [← hLy]; exact (log2_floor_spec y hy).1
    -- upper bound for the rounding of x
    have hxr : (round_half_even (x / (2 : ℚ) ^ (ex - 52)) : ℚ) * (2 : ℚ) ^ (ex - 52)
        ≤ (2 : ℚ) ^ (ex + 1) := by
      have hm : x / (2 : ℚ) ^ (ex - 52) ≤ (((2 : ℤ) ^ 53 : ℤ) : ℚ) := by
        rw [div_le_iff₀ hqx]
        have e1 : (((2 : ℤ) ^ 53 : ℤ) : ℚ) * (2 : ℚ) ^ (ex - 52) = (2 : ℚ) ^ (ex + 1) := by
          rw [pow2_cast_mul 53 (ex - 52)]
          congr 1; push_cast; ring
        rw [e1]; exact le_of_lt hxlt
      have hr := round_half_even_le_int hm
      have hr' : (round_half_even (x / (2 : ℚ) ^ (ex - 52)) : ℚ) ≤ (((2 : ℤ) ^ 53 : ℤ) : ℚ) := by
        exact_mod_cast hr
      have e1 : (((2 : ℤ) ^ 53 : ℤ) : ℚ) * (2 : ℚ) ^ (ex - 52) = (2 : ℚ) ^ (ex + 1) := by
        rw [pow2_cast_mul 53 (ex - 52)]
        congr 1; push_cast; ring
      rw [← e1]
      exact mul_le_mul_of_nonneg_right hr' (le_of_lt hqx)
    -- lower bound for the rounding of y
    have hyr : (2 : ℚ) ^ ey
        ≤ (round_half_even (y / (2 : ℚ) ^ (ey - 52)) : ℚ) * (2 : ℚ) ^ (ey - 52) := by
      have e1 : (((2 : ℤ) ^ 52 : ℤ) : ℚ) * (2 : ℚ) ^ (ey - 52) = (2 : ℚ) ^ ey := by
        rw [pow2_cast_mul 52 (ey - 52)]
        congr 1; push_cast; ring
      have hm : (((2 : ℤ) ^ 52 : ℤ) : ℚ) ≤ y / (2 : ℚ) ^ (ey - 52) := by
        rw [le_div_iff₀ hqy, e1]; exact hyge
      have hr := int_le_round_half_even hm
      have hr' : (((2 : ℤ) ^ 52 : ℤ) : ℚ) ≤ (round_half_even (y / (2 : ℚ) ^ (ey - 52)) : ℚ) := by
        exact_mod_cast hr
      rw [← e1]
      exact mul_le_mul_of_nonneg_right hr' (le_of_lt hqy)
    calc (round_half_even (x / (2 : ℚ) ^ (ex - 52)) : ℚ) * (2 : ℚ) ^ (ex - 52)
        ≤ (2 : ℚ) ^ (ex + 1) := hxr
      _ ≤ (2 : ℚ) ^ ey := zpow_le_zpow_right₀ (le_of_lt h2) (by omega)
      _ ≤ _ := hyr
  · -- same binade: same quantum
    rw [← heq]
    apply mul_le_mul_of_nonneg_right _ (le_of_lt hqx)
    have : round_half_even (x / (2 : ℚ) ^ (ex - 52)) ≤ round_half_even (y / (2 : ℚ) ^ (ex - 52)) :=
      round_half_even_mono (div_le_div_of_nonneg_right hxy (le_of_lt hqx))
    exact_mod_cast this

theorem fl64_zero : fl64 0 = 0 := by simp [fl64]

/-- Binary64 rounding (round to nearest, ties to even) is monotone. -/
theorem fl64_monotone : Monotone fl64 := by
  intro x y hxy
  rcases lt_trichotomy x 0 with hx | hx | hx
  · rcases lt_trichotomy y 0 with hy | hy | hy
    · rw [fl64_of_neg x hx, fl64_of_neg y hy]
      have := fl64_mono_pos (by linarith : (0 : ℚ) < -y) (by linarith : -y ≤ -x)
      linarith
    · rw [hy, fl64_zero, fl64_of_neg x hx]
      have := fl64_nonneg_of_pos (-x) (by linarith)
      linarith
    · rw [fl64_of_neg x hx]
      have h1 := fl64_nonneg_of_pos (-x) (by linarith)
      have h2 := fl64_nonneg_of_pos y hy
      linarith
  · rw [hx, fl64_zero]
    rcases lt_or_eq_of_le (by rw [hx] at hxy; exact hxy : (0 : ℚ) ≤ y) with hy | hy
    · exact fl64_nonneg_of_pos y hy
    · rw [← hy, fl64_zero]
  · exact fl64_mono_pos hx hxy

/-! ## Gate, step order and message in rounded (`double`) arithmetic -/

/-- C6: in the code's arithmetic (every `double` operation rounded by `fl`,
whatever the rounding), on a non-first buffer a power sample `s` with
`s ≥ noise * threshold` (the rounded product the code compares with) leaves
the noise EMA unchanged, and any other sample moves it to
`noise + 0.05 * (s - noise)` (each operation rounded).  In particular, for a
monotone rounding, and so in binary64 (`fl64`), from the tracking state
`noise = power = P > 0` with threshold 2.3, after `k ≥ 1` consecutive buffers
of power `10 * P` (a representable value) the noise EMA is still exactly `P`. -/
theorem noise_gate_double (fl : ℚ → ℚ) (g : Globals) (hinit : g.init_noise = true) :
    (∀ s : ℚ, fl (g.noise_ema * g.detect_ratio) ≤ s →
      (rx_track_r fl g s).globals.noise_ema = g.noise_ema) ∧
    (∀ s : ℚ, ¬ (fl (g.noise_ema * g.detect_ratio) ≤ s) →
      (rx_track_r fl g s).globals.noise_ema
        = fl (g.noise_ema + fl (fl (1 / 20) * fl (s - g.noise_ema)))) ∧
    (∀ (P : ℚ) (k : Nat), Monotone fl → fl 10 = 10 → fl (10 * P) = 10 * P →
      0 < P → 1 ≤ k → g.noise_ema = P → g.power_ema = P →
      g.detect_ratio = fl (23 / 10) →
      (rx_run_r fl g (List.replicate k (10 * P))).noise_ema = P) ∧
    (∀ (P : ℚ) (k : Nat), fl64 (10 * P) = 10 * P →
      0 < P → 1 ≤ k → g.noise_ema = P → g.power_ema = P →
      g.detect_ratio = fl64 (23 / 10) →
      (rx_run_r fl64 g (List.replicate k (10 * P))).noise_ema = P) := by
  refine ⟨fun s hs => ?_, fun s hs => ?_, fun P k hmono h10 hrep hP _ hn _ hthr => ?_,
    fun P k hrep hP _ hn _ hthr => ?_⟩
  · rw [rx_track_r_noise, ema_locals_r_tracking fl g s hinit]
    exact if_neg (not_lt.mpr hs)
  · rw [rx_track_r_noise, ema_locals_r_tracking fl g s hinit]
    dsimp only
    rw [if_pos (not_le.mp hs)]
    rfl
  · have hle : g.detect_ratio ≤ 10 := by
      rw [hthr]
      exact le_trans (hmono (by norm_num : (23 / 10 : ℚ) ≤ 10)) (le_of_eq h10)
    exact (rx_run_r_step_noise fl hmono g P hinit hn hle hP hrep k).2.1
  · have hle : g.detect_ratio ≤ 10 := by
      rw [hthr]; decide!
    exact (rx_run_r_step_noise fl64 fl64_monotone g P hinit hn hle hP hrep k).2.1

/-- Witness for C6, in binary64 arithmetic.  After the power samples 34/3 and
18 the noise EMA is the `double` 11.666666666666668; for the next sample
161/6 the rounded product `noise * 2.3` exceeds the sample by one unit in the
last place, the gate opens and the noise EMA becomes 12.425.  From
`noise = power = 100`, three buffers of power 1000 leave the noise EMA at 100. -/
theorem noise_gate_double_witness :
    (rx_run_r fl64 (g_init_r fl64) [fl64 (34 / 3), 18]).init_noise = true ∧
    ¬ (fl64 ((rx_run_r fl64 (g_init_r fl64) [fl64 (34 / 3), 18]).noise_ema *
          (rx_run_r fl64 (g_init_r fl64) [fl64 (34 / 3), 18]).detect_ratio)
        ≤ fl64 (161 / 6)) ∧
    (rx_track_r fl64 (rx_run_r fl64 (g_init_r fl64) [fl64 (34 / 3), 18])
      (fl64 (161 / 6))).globals.noise_ema = 3497326585629901 / 281474976710656 ∧
    Monotone fl64 ∧ fl64 10 = 10 ∧ fl64 (10 * 100) = 10 * 100 ∧
    ({ tracking 100 100 with detect_ratio := fl64 (23 / 10) } : Globals).init_noise = true ∧
    (rx_run_r fl64 { tracking 100 100 with detect_ratio := fl64 (23 / 10) }
      (List.replicate 3 (10 * 100))).noise_ema = 100 := by
  have hgate : ¬ (fl64 ((rx_run_r fl64 (g_init_r fl64) [fl64 (34 / 3), 18]).noise_ema *
          (rx_run_r fl64 (g_init_r fl64) [fl64 (34 / 3), 18]).detect_ratio)
        ≤ fl64 (161 / 6)) := by decide!
  have hinit : (rx_run_r fl64 (g_init_r fl64) [fl64 (34 / 3), 18]).init_noise = true := by
    decide!
  have h10 : fl64 10 = 10 := by decide!
  have h1000 : fl64 (10 * 100) = 10 * 100 := by decide!
  refine ⟨hinit, hgate, ?_, fl64_monotone, h10, h1000, rfl, ?_⟩
  · rw [(noise_gate_double fl64 _ hinit).2.1 (fl64 (161 / 6)) hgate]
    decide!
  · exact (noise_gate_double fl64 { tracking 100 100 with detect_ratio := fl64 (23 / 10) }
      rfl).2.2.2 100 3 h1000 (by norm_num) (by norm_num) rfl rfl rfl

/-- C8 as stated fails, in binary64 arithmetic: after the buffers with power
samples 100 and 2900 the tracker holds noise = 100, power = 240 (threshold the
`double` 2.3).  On a next buffer of power 0 the updated power 228 divided by
the noise floor as it stood before this buffer (100) is 2.28, not above the
threshold, yet a detection fires: the ratio is taken against the noise floor
after its update to 95, which gives 2.4. -/
theorem detection_not_on_old_noise_double :
    (rx_run_r fl64 (g_init_r fl64) [100, 2900]).init_noise = true ∧
    (rx_run_r fl64 (g_init_r fl64) [100, 2900]).noise_ema = 100 ∧
    (rx_run_r fl64 (g_init_r fl64) [100, 2900]).power_ema = 240 ∧
    (rx_run_r fl64 (g_init_r fl64) [100, 2900]).detect_ratio = fl64 (23 / 10) ∧
    fires_r fl64 (rx_run_r fl64 (g_init_r fl64) [100, 2900]) 0 = true ∧
    (rx_track_r fl64 (rx_run_r fl64 (g_init_r fl64) [100, 2900]) 0).globals.power_ema = 228 ∧
    (rx_track_r fl64 (rx_run_r fl64 (g_init_r fl64) [100, 2900]) 0).globals.noise_ema = 95 ∧
    (rx_track_r fl64 (rx_run_r fl64 (g_init_r fl64) [100, 2900]) 0).ratio = fl64 (228 / 95) ∧
    ¬ (fl64 ((rx_track_r fl64 (rx_run_r fl64 (g_init_r fl64) [100, 2900]) 0).globals.power_ema /
          (rx_run_r fl64 (g_init_r fl64) [100, 2900]).noise_ema)
        > (rx_run_r fl64 (g_init_r fl64) [100, 2900]).detect_ratio) := by
  decide!

/-- C8 (amended): on every non-first power sample `s`, in the code's arithmetic
(every `double` operation rounded by `fl`, whatever the rounding), (1) the
power EMA becomes `power + 0.05 * (s - power)`; (3) the noise EMA becomes
`noise + 0.05 * (s - noise)` when `s < noise * threshold` and is unchanged
otherwise; (2) the ratio is the new power EMA divided by the noise floor as it
stands after the update (3) when that noise floor exceeds `1e-9`, else 0;
(4) a detection message is published, and stored, exactly when that ratio
exceeds the threshold. -/
theorem detection_on_updated_noise_double (fl : ℚ → ℚ) (g : Globals) (s : ℚ)
    (hinit : g.init_noise = true) :
    (rx_track_r fl g s).globals.power_ema
      = fl (g.power_ema + fl (fl (1 / 20) * fl (s - g.power_ema))) ∧
    (rx_track_r fl g s).globals.noise_ema =
      (if s < fl (g.noise_ema * g.detect_ratio) then
         fl (g.noise_ema + fl (fl (1 / 20) * fl (s - g.noise_ema)))
       else g.noise_ema) ∧
    (rx_track_r fl g s).ratio =
      (if (rx_track_r fl g s).globals.noise_ema > fl (1 / 1000000000) then
         fl ((rx_track_r fl g s).globals.power_ema / (rx_track_r fl g s).globals.noise_ema)
       else 0) ∧
    ((rx_track_r fl g s).published.isSome = true ↔
      (rx_track_r fl g s).ratio > g.detect_ratio) ∧
    ((rx_track_r fl g s).published.isSome = true →
      (rx_track_r fl g s).globals.last_detection = (rx_track_r fl g s).published) ∧
    ((rx_track_r fl g s).published = none →
      (rx_track_r fl g s).globals.last_detection = g.last_detection) := by
  refine ⟨?_, ?_, ?_, fires_r_iff fl g s, ?_, ?_⟩
  · rw [rx_track_r_power, ema_locals_r_tracking fl g s hinit]; rfl
  · rw [rx_track_r_noise, ema_locals_r_tracking fl g s hinit]; rfl
  · rw [rx_track_r_ratio, rx_track_r_noise, rx_track_r_power]
  · unfold rx_track_r; dsimp only; split_ifs <;> simp
  · unfold rx_track_r; dsimp only; split_ifs <;> simp

/-- Witness for C8 (amended), in binary64 arithmetic: noise = power = 3 (after
a first buffer of power 3) and a buffer of power 81.  The power EMA becomes the
`double` 6.9000000000000004, the noise floor stays 3, the ratio
2.3000000000000003 exceeds the `double` 2.3 and a message is published. -/
theorem detection_on_updated_noise_double_witness :
    (rx_run_r fl64 (g_init_r fl64) [3]).init_noise = true ∧
    (rx_track_r fl64 (rx_run_r fl64 (g_init_r fl64) [3]) 81).globals.power_ema
      = 3884354678607053 / 562949953421312 ∧
    (rx_track_r fl64 (rx_run_r fl64 (g_init_r fl64) [3]) 81).globals.noise_ema = 3 ∧
    (rx_track_r fl64 (rx_run_r fl64 (g_init_r fl64) [3]) 81).ratio
      = 5179139571476071 / 2251799813685248 ∧
    (rx_track_r fl64 (rx_run_r fl64 (g_init_r fl64) [3]) 81).ratio
      > (rx_run_r fl64 (g_init_r fl64) [3]).detect_ratio ∧
    (rx_track_r fl64 (rx_run_r fl64 (g_init_r fl64) [3]) 81).published.isSome = true := by
  have hinit : (rx_run_r fl64 (g_init_r fl64) [3]).init_noise = true := by decide!
  have h := detection_on_updated_noise_double fl64 (rx_run_r fl64 (g_init_r fl64) [3]) 81 hinit
  have hgt : (rx_track_r fl64 (rx_run_r fl64 (g_init_r fl64) [3]) 81).ratio
      > (rx_run_r fl64 (g_init_r fl64) [3]).detect_ratio := by decide!
  refine ⟨hinit, ?_, ?_, ?_, hgt, h.2.2.2.1.mpr hgt⟩
  · rw [h.1]; decide!
  · rw [h.2.1]; decide!
  · decide!

/-- A run on which no buffer fires leaves `g_last_detection` as it was. -/
theorem rx_run_r_last_of_never_fires (fl : ℚ → ℚ) (g : Globals) (l : List ℚ)
    (hnf : ∀ pre s post, l = pre ++ s :: post → fires_r fl (rx_run_r fl g pre) s = false) :
    (rx_run_r fl g l).last_detection = g.last_detection := by
  induction l using List.reverseRecOn with
  | nil => rfl
  | append_singleton l s ih =>
    rw [rx_run_r_snoc, rx_track_r_last_of_not_fires fl _ s (hnf l s [] rfl)]
    apply ih
    intro pre x post hl
    exact hnf pre x (post ++ [s]) (by rw [hl]; simp)

/-- For every table frequency the `double` `(double)freq_hz / 1e6` is the whole
number of MHz, that is `hz / 100000` tenths: `%.1f` prints it exactly. -/
theorem table_mhz_double :
    ∀ e ∈ g_scan_freqs,
      fl64 (fl64 (e.hz : ℚ) / 1000000) = ((e.hz / 100000 : Nat) : ℚ) / 10 := by
  decide!

theorem rx_callback_r_scanning (fl : ℚ → ℚ) (g : Globals) (t : hackrf_transfer)
    (hs : g.scanning = true) (hc : t.valid_length / 2 ≠ 0) :
    (rx_callback_r fl g t).2 = (rx_track_r fl g (avg_power_r fl t)).globals := by
  simp [rx_callback_r, hs, hc]

/-- C15: in the code's arithmetic (every `double` operation rounded by `fl`,
whatever the rounding), `nativeGetLastDetection` returns none in the initial
state and after any sequence of buffers none of which fired (when nothing was
stored before); after a buffer on which a detection fires it returns the
message published by that buffer, whose frequency field is
`(double)g_current_freq_hz / 1e6` and whose POWER and NOISE fields are the
truncations `(int)power_ema` and `(int)noise_ema` of the EMAs just stored;
while scanning, `rx_callback` on a buffer with at least one I/Q pair is that
tracker step on the buffer's average power.  In binary64 arithmetic, when the
tuned frequency is a table frequency the frequency field is the whole number
`hz / 100000` of tenths of a MHz, so it is exact with one decimal place. -/
theorem last_detection_round_trip_double (fl : ℚ → ℚ) :
    nativeGetLastDetection (g_init_r fl) = none ∧
    (∀ (g : Globals) (l : List ℚ), g.last_detection = none →
      (∀ pre s post, l = pre ++ s :: post → fires_r fl (rx_run_r fl g pre) s = false) →
      nativeGetLastDetection (rx_run_r fl g l) = none) ∧
    (∀ (g : Globals) (s : ℚ), fires_r fl g s = true →
      nativeGetLastDetection (rx_track_r fl g s).globals = (rx_track_r fl g s).published ∧
      (rx_track_r fl g s).published =
        some (Message.detection (fl (fl (g.current_freq_hz : ℚ) / 1000000))
          (c_int (rx_track_r fl g s).globals.power_ema)
          (c_int (rx_track_r fl g s).globals.noise_ema)
          (rx_track_r fl g s).ratio)) ∧
    (∀ (g : Globals) (t : hackrf_transfer), g.scanning = true → t.valid_length / 2 ≠ 0 →
      (rx_callback_r fl g t).2 = (rx_track_r fl g (avg_power_r fl t)).globals) ∧
    (∀ x : ℚ, 0 ≤ x → 0 ≤ c_int x ∧ (c_int x : ℚ) ≤ x ∧ x < (c_int x : ℚ) + 1) ∧
    (∀ (g : Globals) (s : ℚ), fires_r fl64 g s = true →
      (∃ e ∈ g_scan_freqs, g.current_freq_hz = e.hz) →
      nativeGetLastDetection (rx_track_r fl64 g s).globals =
        some (Message.detection (((g.current_freq_hz / 100000 : Nat) : ℚ) / 10)
          (c_int (rx_track_r fl64 g s).globals.power_ema)
          (c_int (rx_track_r fl64 g s).globals.noise_ema)
          (rx_track_r fl64 g s).ratio)) := by
  refine ⟨rfl, ?_, ?_, rx_callback_r_scanning fl, c_int_of_nonneg, ?_⟩
  · intro g l hnone hnf
    unfold nativeGetLastDetection
    rw [rx_run_r_last_of_never_fires fl g l hnf, hnone]
  · intro g s hf
    exact rx_track_r_last_of_fires fl g s hf
  · intro g s hf ⟨e, he, hhz⟩
    obtain ⟨h1, h2⟩ := rx_track_r_last_of_fires fl64 g s hf
    unfold nativeGetLastDetection
    rw [h1, h2, hhz, table_mhz_double e he]

/-- Witness for C15, in binary64 arithmetic: while scanning from the initial
state, the buffers `[129, 128, 130, 129]` (power 3) and `[128, 137]` (power 81).
The first fires nothing and none is returned; the second fires and the message
returned is `FREQ = 300.0, POWER = 6, NOISE = 3` with ratio 2.3000000000000003. -/
theorem last_detection_round_trip_double_witness :
    avg_power_r fl64 { buffer := [129, 128, 130, 129], valid_length := 4 } = 3 ∧
    avg_power_r fl64 { buffer := [128, 137], valid_length := 2 } = 81 ∧
    nativeGetLastDetection (rx_run_r fl64 (g_init_r fl64) [3]) = none ∧
    fires_r fl64 (rx_run_r fl64 (g_init_r fl64) [3]) 81 = true ∧
    nativeGetLastDetection (rx_track_r fl64 (rx_run_r fl64 (g_init_r fl64) [3]) 81).globals =
      some (Message.detection 300 6 3 (5179139571476071 / 2251799813685248)) ∧
    nativeGetLastDetection
      (rx_callback_run_r fl64 { g_init_r fl64 with scanning := true }
        [{ buffer := [129, 128, 130, 129], valid_length := 4 },
         { buffer := [128, 137], valid_length := 2 }]) =
      some (Message.detection 300 6 3 (5179139571476071 / 2251799813685248)) := by
  have hf : fires_r fl64 (rx_run_r fl64 (g_init_r fl64) [3]) 81 = true := by decide!
  have h := last_detection_round_trip_double fl64
  refine ⟨by decide!, by decide!, ?_, hf, ?_, by decide!⟩
  · apply h.2.1 (g_init_r fl64) [3] rfl
    intro pre s post hl
    match pre, hl with
    | [], hl =>
      simp only [List.nil_append, List.cons.injEq] at hl
      rw [← hl.1]
      decide!
    | a :: rest, hl =>
      simp at hl
  · rw [(h.2.2.1 _ 81 hf).1, (h.2.2.1 _ 81 hf).2]
    decide!

end FPVScanner
